import Mathlib

set_option maxRecDepth 100000
set_option maxHeartbeats 1000000

/-
Verification of `fix_lammps_types.py` (the by-atomic-number variant of the
LAMMPS type-reordering tool).  The Python source is shallowly embedded below:
strings are Lean `String`s (lists of characters), Python floats are modelled
as exact rationals `ℚ` (every numeric literal involved — the hardcoded element
table and the `%.8f` output format — is an exact decimal, on which binary64
arithmetic and exact rational arithmetic agree), Python dicts are association
lists with Python's insertion-order semantics, and raised-and-caught
exceptions are modelled by explicit outcome values.
-/

namespace FixLammps

/-- Python whitespace predicate used by `str.strip()` and `str.split()`
(ASCII subset, which is all the tool's inputs use). -/
def isSpace (c : Char) : Bool :=
  c == ' ' || c == '\t' || c == '\n' || c == '\r' || c == '\x0b' || c == '\x0c'

/-- Drop trailing whitespace, the second half of Python `str.strip()`. -/
def stripEnd (l : List Char) : List Char :=
  (l.reverse.dropWhile isSpace).reverse

/-- Python `str.strip()` on the character list. -/
def pyStripL (l : List Char) : List Char :=
  stripEnd (l.dropWhile isSpace)

/-- Python `str.strip()`. -/
def pyStrip (s : String) : String := String.mk (pyStripL s.data)

/-- Accumulator loop of Python `str.split()` (no argument): split on runs of
whitespace, discarding empty fields. -/
def splitWsAux : List Char → List Char → List (List Char)
  | [], acc => if acc.isEmpty then [] else [acc.reverse]
  | c :: cs, acc =>
    if isSpace c then
      if acc.isEmpty then splitWsAux cs [] else acc.reverse :: splitWsAux cs []
    else splitWsAux cs (c :: acc)

/-- Python `str.split()` on a character list. -/
def splitWsL (l : List Char) : List (List Char) := splitWsAux l []

/-- Python `str.split()` (whitespace splitting, empty fields dropped). -/
def pySplitWs (s : String) : List String := (splitWsL s.data).map String.mk

/-- Python `s.split('#')[0]`: the prefix of `s` before the first `'#'`. -/
def beforeHash (s : String) : String := String.mk (s.data.takeWhile (· != '#'))

/-- Prefix test on character lists (model of Python `str.startswith`). -/
def isPre : List Char → List Char → Bool
  | [], _ => true
  | _ :: _, [] => false
  | c :: cs, d :: ds => c == d && isPre cs ds

/-- Python `s.startswith(pre)`. -/
def strStarts (s pre : String) : Bool := isPre pre.data s.data

/-- Decimal digit character for a value below ten (values ten and above cannot
arise from `n % 10`). -/
def digitChar : ℕ → Char
  | 0 => '0' | 1 => '1' | 2 => '2' | 3 => '3' | 4 => '4'
  | 5 => '5' | 6 => '6' | 7 => '7' | 8 => '8' | _ => '9'

/-- Decimal-digit loop with a structurally decreasing fuel (any `fuel ≥ n`
gives the digits of `n`), so that the kernel can evaluate it;
`natDigits_eq` below restores the natural recurrence. -/
def natDigitsFuel : ℕ → ℕ → List Char
  | 0, n => [digitChar n]
  | fuel + 1, n =>
    if n < 10 then [digitChar n]
    else natDigitsFuel fuel (n / 10) ++ [digitChar (n % 10)]

/-- Decimal digits of a natural number, most significant first
(model of Python `str` on a non-negative int). -/
def natDigits (n : ℕ) : List Char := natDigitsFuel n n

/-- Python `str(i)` for an int. -/
def intStr (i : Int) : String :=
  if i < 0 then String.mk ('-' :: natDigits i.natAbs) else String.mk (natDigits i.natAbs)

/-- Numeric value of a digit character. -/
def digitVal (c : Char) : ℕ := c.toNat - 48

/-- Value of a big-endian digit string. -/
def digitsVal (l : List Char) : ℕ := l.foldl (fun a c => 10 * a + digitVal c) 0

/-- Parse a non-empty all-digit string (helper for Python `int()`). -/
def digitsToNat? (l : List Char) : Option ℕ :=
  if !l.isEmpty && l.all Char.isDigit then some (digitsVal l) else none

/-- Python `int(s)` on a whitespace-free token: optional sign followed by at
least one decimal digit; anything else raises `ValueError`, modelled as
`none`. -/
def pyInt? (s : String) : Option Int :=
  match s.data with
  | [] => none
  | c :: rest =>
    if c = '-' then (digitsToNat? rest).map (fun n => -(n : Int))
    else if c = '+' then (digitsToNat? rest).map (fun n => (n : Int))
    else (digitsToNat? (c :: rest)).map (fun n => (n : Int))

/-- Unsigned part of Python `float(s)` for plain decimal literals
(`"12"`, `"12.011"`, `".5"`, `"3."`): the forms the tool's data files use.
A failing parse (`ValueError`) is `none`.  The value of `"ip.fr"` is the exact
rational `ip + fr / 10 ^ |fr|`, built with `mkRat` so that it evaluates by
kernel reduction; `mkRat_decimal` below proves the two forms equal. -/
def pyFloatCore (l : List Char) : Option ℚ :=
  let ip := l.takeWhile Char.isDigit
  let rest := l.dropWhile Char.isDigit
  match rest with
  | [] => if ip.isEmpty then none else some (mkRat (digitsVal ip) 1)
  | c :: fr =>
    if c = '.' && fr.all Char.isDigit && !(ip.isEmpty && fr.isEmpty) then
      some (mkRat (digitsVal ip * 10 ^ fr.length + digitsVal fr) (10 ^ fr.length))
    else none

/-- Python `float(s)` on a whitespace-free token, with optional sign. -/
def pyFloat? (s : String) : Option ℚ :=
  match s.data with
  | [] => none
  | c :: rest =>
    if c = '-' then (pyFloatCore rest).map (fun q => -q)
    else if c = '+' then pyFloatCore rest
    else pyFloatCore (c :: rest)

/-- Zero-pad a digit string on the left to eight characters. -/
def padZeros8 (l : List Char) : List Char := List.replicate (8 - l.length) '0' ++ l

/-- Python `f"{q:.8f}"` for the non-negative table masses, whose values are
exact multiples of `10 ^ (-8)`; on these values binary64 rounding and exact
formatting agree (source line 126).  The integer printed is
`(q * 10 ^ 8).num`, computed as `q.num * (10 ^ 8 / q.den)` so that it
evaluates by kernel reduction; `formatFixed8_arg` below proves the two
computations equal whenever `q.den` divides `10 ^ 8`. -/
def formatFixed8 (q : ℚ) : String :=
  let n := (q.num * (((100000000 : ℕ) / q.den : ℕ) : ℤ)).toNat
  String.mk (natDigits (n / 100000000) ++ '.' :: padZeros8 (natDigits (n % 100000000)))

/-- The hardcoded element table, in the dict's insertion (= iteration) order:
symbol, reference atomic mass, atomic number (source lines 11-25).  The
masses are the source's decimal literals written as exact rationals
(`mkRat 1008 1000 = 1.008`, and so on). -/
def ELEMENT_DATA : List (String × ℚ × ℕ) :=
  [("H", mkRat 1008 1000, 1), ("He", mkRat 4003 1000, 2), ("C", mkRat 12011 1000, 6),
   ("N", mkRat 14007 1000, 7), ("O", mkRat 15999 1000, 8), ("Al", mkRat 26982 1000, 13),
   ("Ti", mkRat 47867 1000, 22), ("Cr", mkRat 51996 1000, 24), ("Fe", mkRat 55845 1000, 26),
   ("Ni", mkRat 58693 1000, 28), ("Cu", mkRat 63546 1000, 29), ("Mo", mkRat 9595 100, 42),
   ("W", mkRat 18384 100, 74)]

/-- The comparison `abs(mass - ref_mass) < 1.0` of source line 31, computed on
numerators and denominators so that it evaluates by kernel reduction;
`massClose_iff` below proves it equivalent to `|m - ref| < 1`. -/
def massClose (m ref : ℚ) : Bool :=
  decide ((m.num * (ref.den : ℤ) - ref.num * (m.den : ℤ)).natAbs < m.den * ref.den)

/-- `identify_element` (source lines 27-33): first table entry whose reference
mass is within 1.0 of the given mass; the `ValueError` raised when none
matches is modelled as `none`. -/
def identify_element (m : ℚ) : Option String :=
  (ELEMENT_DATA.find? (fun p => massClose m p.2.1)).map (fun p => p.1)

/-- `get_atomic_number` (source lines 35-37).  All call sites pass a symbol
returned by `identify_element`, which is a table key, so the `getD 0`
default never fires on a run of the program. -/
def get_atomic_number (e : String) : ℕ :=
  ((ELEMENT_DATA.find? (fun p => p.1 == e)).map (fun p => p.2.2)).getD 0

/-- `ELEMENT_DATA[element][0]`, the reference mass of a table symbol
(source line 124). -/
def refMass (e : String) : ℚ :=
  ((ELEMENT_DATA.find? (fun p => p.1 == e)).map (fun p => p.2.1)).getD 0

/-- Masses-header test of the section locator (source line 50): the stripped
line equals `"Masses"`, or starts with it and has exactly one token. -/
def isMassesHeader (line : String) : Bool :=
  let l := pyStrip line
  l == "Masses" || (strStarts l "Masses" && (pySplitWs l).length == 1)

/-- Atoms-header test of the section locator (source line 53). -/
def isAtomsHeader (line : String) : Bool := strStarts (pyStrip line) "Atoms"

/-- The locator loop (source lines 47-56): remember the latest Masses match,
and break at the first Atoms match (a Masses-matching line is never tested
for Atoms, mirroring the `elif`).  `-1` sentinels are modelled by `none`. -/
def locateLoop : List String → ℕ → Option ℕ → Option ℕ × Option ℕ
  | [], _, m => (m, none)
  | l :: ls, i, m =>
    if isMassesHeader l then locateLoop ls (i + 1) (some i)
    else if isAtomsHeader l then (m, some i)
    else locateLoop ls (i + 1) m

/-- Section boundary search over the whole file. -/
def locateSections (lines : List String) : Option ℕ × Option ℕ := locateLoop lines 0 none

/-- Python dict assignment `d[k] = v`: an existing key keeps its position and
gets the new value; a fresh key is appended. -/
def dictInsert {α : Type} (d : List (Int × α)) (k : Int) (v : α) : List (Int × α) :=
  if d.any (fun p => p.1 == k) then d.map (fun p => if p.1 == k then (k, v) else p)
  else d ++ [(k, v)]

/-- Python dict lookup `d[k]` / `k in d`. -/
def dictGet? {α : Type} (d : List (Int × α)) (k : Int) : Option α :=
  (d.find? (fun p => p.1 == k)).map (fun p => p.2)

/-- What happens to one line of the Masses section (source lines 72-88):
blank/comment lines are skipped silently, lines with fewer than two tokens
fall through the `if len(parts) >= 2` silently, a `ValueError` from `int`,
`float` or `identify_element` is caught and warned about, and a good line
yields a (type id, element) pair. -/
inductive MassOutcome
  | skippedBlank
  | skippedShort
  | warned
  | parsed (t : Int) (e : String)
deriving DecidableEq

/-- Classify one Masses-section line exactly as the parsing loop does. -/
def massLineOutcome (line : String) : MassOutcome :=
  let l := pyStrip line
  if l == "" || strStarts l "#" then .skippedBlank
  else
    let parts := pySplitWs (beforeHash l)
    if parts.length < 2 then .skippedShort
    else
      match pyInt? (parts.getD 0 ""), pyFloat? (parts.getD 1 "") with
      | some t, some m =>
        match identify_element m with
        | some e => .parsed t e
        | none => .warned
      | _, _ => .warned

/-- The (type id, element) pair a Masses line contributes, if any. -/
def parsedPair? (line : String) : Option (Int × String) :=
  match massLineOutcome line with
  | .parsed t e => some (t, e)
  | _ => none

/-- One step of building `current_type_to_element` (source line 85). -/
def massStep (d : List (Int × String)) (line : String) : List (Int × String) :=
  match massLineOutcome line with
  | .parsed t e => dictInsert d t e
  | _ => d

/-- `current_type_to_element` built from the lines strictly between the
headers (source lines 68-88). -/
def parseMassesDict (slice : List String) : List (Int × String) :=
  slice.foldl massStep []

/-- The lines `lines[ms+1 : as]` scanned by the masses-parsing loop. -/
def massesSlice (lines : List String) (ms as : ℕ) : List String :=
  (lines.drop (ms + 1)).take (as - (ms + 1))

/-- Sort key of `elements_sorted` (source line 96). -/
def zOfPair (p : Int × String) : ℕ := get_atomic_number p.2

/-- Stable insertion keyed by `key`: the new element goes in front of the
first existing element whose key is not smaller. -/
def insKey {α β : Type} [LinearOrder β] (key : α → β) (p : α) : List α → List α
  | [] => [p]
  | q :: qs => if key q < key p then q :: insKey key p qs else p :: q :: qs

/-- Stable sort by `key`, the model of Python's stable `sorted(..., key=...)`:
the result is sorted by `key` and elements with equal keys keep their
original relative order, which characterises `sorted` uniquely
(stability is proved below). -/
def sortKey {α β : Type} [LinearOrder β] (key : α → β) (l : List α) : List α :=
  l.foldr (insKey key) []

/-- `elements_sorted` (source lines 95-96). -/
def sortByZ (l : List (Int × String)) : List (Int × String) := sortKey zOfPair l

/-- `sorted` on a list of ints (used for `sorted(new_type_to_element.keys())`,
source line 122). -/
def sortInts (l : List Int) : List Int := sortKey id l

/-- The loop of source lines 102-104 filling `type_mapping`. -/
def tmLoop : Int → List (Int × Int) → List (Int × String) → List (Int × Int)
  | _, d, [] => d
  | n, d, p :: rest => tmLoop (n + 1) (dictInsert d p.1 n) rest

/-- `type_mapping`: old type id to new type id. -/
def type_mapping (l : List (Int × String)) : List (Int × Int) := tmLoop 1 [] l

/-- The loop of source lines 102-104 filling `new_type_to_element`. -/
def neLoop : Int → List (Int × String) → List (Int × String) → List (Int × String)
  | _, d, [] => d
  | n, d, p :: rest => neLoop (n + 1) (dictInsert d n p.2) rest

/-- `new_type_to_element`: new type id to element symbol. -/
def new_type_to_element (l : List (Int × String)) : List (Int × String) := neLoop 1 [] l

/-- One line of the rewritten Masses block (source line 126): the mass written
is the table mass `ELEMENT_DATA[element][0]`, not the mass read from the
input file. -/
def massesLine (t : Int) (e : String) : String :=
  "            " ++ intStr t ++ "   " ++ formatFixed8 (refMass e) ++ "             # " ++ e ++ "\n"

/-- The rewritten Masses block (source lines 122-126): one line per key of
`new_type_to_element`, keys in ascending order. -/
def massesBlock (ne : List (Int × String)) : List String :=
  (sortInts (ne.map (fun p => p.1))).map (fun k => massesLine k ((dictGet? ne k).getD ""))

/-- Right-align a token in a field of width `w` (Python `{x:>w}` / `{i:wd}`). -/
def padLeft (s : String) (w : ℕ) : String :=
  String.mk (List.replicate (w - s.data.length) ' ' ++ s.data)

/-- `'       ' + '       '.join(xs)` for nonempty `xs`, and `""` for `[]`
(the extra columns beyond the third coordinate, source lines 160-161). -/
def extraCols : List String → String
  | [] => ""
  | t :: rest => "       " ++ t ++ extraCols rest

/-- The reformatted atom record (source lines 158-162). -/
def formatAtomLine (atom_id : Int) (new_type : Int) (coords : List String) : String :=
  "      " ++ padLeft (intStr atom_id) 6 ++ "    " ++ intStr new_type ++ "        " ++
  padLeft (coords.getD 0 "") 20 ++ "       " ++ padLeft (coords.getD 1 "") 20 ++ "       " ++
  padLeft (coords.getD 2 "") 20 ++ extraCols (coords.drop 3) ++ "\n"

/-- What the Atoms-section loop writes for one line (source lines 137-168):
nothing for blank/comment lines, lines with fewer than four tokens, lines
whose first two tokens are not ints, and mapped lines with fewer than five
tokens (there `coords[2]` raises `IndexError` inside the f-string, which the
`except` clause swallows before anything is written); the original line for
a mapped-out type; the reformatted record otherwise. -/
inductive AtomOut
  | dropped
  | passthrough (s : String)
  | remapped (s : String)
deriving DecidableEq

/-- Process one line after the Atoms header. -/
def processAtomLine (tm : List (Int × Int)) (line : String) : AtomOut :=
  if pyStrip line == "" || strStarts (pyStrip line) "#" then .dropped
  else
    let parts := pySplitWs line
    if parts.length < 4 then .dropped
    else
      match pyInt? (parts.getD 0 ""), pyInt? (parts.getD 1 "") with
      | some atom_id, some old_type =>
        match dictGet? tm old_type with
        | some new_type =>
          if parts.length < 5 then .dropped
          else .remapped (formatAtomLine atom_id new_type (parts.drop 2))
        | none => .passthrough line
      | _, _ => .dropped

/-- All chunks written by the Atoms loop, in order. -/
def atomChunks (tm : List (Int × Int)) (ls : List String) : List String :=
  ls.foldr (fun l acc =>
    match processAtomLine tm l with
    | .dropped => acc
    | .passthrough s => s :: acc
    | .remapped s => s :: acc) []

/-- `fix_lammps_types` (source lines 39-170) as a function from the input
line list (as produced by `readlines`) to the list of chunks written to the
output file, or `none` when the function returns early without opening the
output file (missing section headers, or an empty
`current_type_to_element`). -/
def fix_lammps_types (lines : List String) : Option (List String) :=
  match locateSections lines with
  | (some ms, some as) =>
    let d := parseMassesDict (massesSlice lines ms as)
    if d.isEmpty then none
    else
      let sortedL := sortByZ d
      let tm := type_mapping sortedL
      let ne := new_type_to_element sortedL
      some (lines.take (ms + 1) ++ "\n" ::
        (massesBlock ne ++ "\n" :: lines.getD as "" :: "\n" ::
          atomChunks tm (lines.drop (as + 1))))
  | _ => none

/-- Python `readlines` on a character list: split after each newline, keeping
the newline; a final fragment without a newline is its own line. -/
def readLinesAux : List Char → List Char → List String
  | [], acc => if acc.isEmpty then [] else [String.mk acc.reverse]
  | c :: cs, acc =>
    if c = '\n' then String.mk (acc.reverse ++ ['\n']) :: readLinesAux cs []
    else readLinesAux cs (c :: acc)

/-- Python `f.readlines()` (source line 41). -/
def pyReadLines (s : String) : List String := readLinesAux s.data []

/-- Concatenation of the written chunks: the byte content of the output file. -/
def joinAll (ls : List String) : String := String.mk ((ls.map (fun s => s.data)).flatten)

/-- The whole tool as a file-content-to-file-content function. -/
def fixString (s : String) : Option String := (fix_lammps_types (pyReadLines s)).map joinAll

/-- `current_type_to_element` of a run (empty when the sections are absent). -/
def runDict (lines : List String) : List (Int × String) :=
  match locateSections lines with
  | (some ms, some as) => parseMassesDict (massesSlice lines ms as)
  | _ => []

/-- `type_mapping` of a successful run. -/
def runMapping? (lines : List String) : Option (List (Int × Int)) :=
  match locateSections lines with
  | (some ms, some as) =>
    let d := parseMassesDict (massesSlice lines ms as)
    if d.isEmpty then none else some (type_mapping (sortByZ d))
  | _ => none

/-- The rewritten Masses block of a successful run. -/
def runMassesBlock? (lines : List String) : Option (List String) :=
  match locateSections lines with
  | (some ms, some as) =>
    let d := parseMassesDict (massesSlice lines ms as)
    if d.isEmpty then none
    else some (massesBlock (new_type_to_element (sortByZ d)))
  | _ => none

/-- The integer range `n, n+1, ..., n+len-1`. -/
def rangeInt : Int → ℕ → List Int
  | _, 0 => []
  | n, k + 1 => n :: rangeInt (n + 1) k

/-- The identity mapping on new type ids `1..n`. -/
def identityMapping (n : ℕ) : List (Int × Int) := (rangeInt 1 n).map (fun k => (k, k))

/-- A line as produced by `readlines` from a newline-terminated file: it ends
with the newline and contains no interior newline. -/
def wfLine (s : String) : Prop := ∃ t, s.data = t ++ ['\n'] ∧ '\n' ∉ t

/-! ### String structure helpers -/

theorem data_mk (l : List Char) : (String.mk l).data = l := rfl

theorem data_append (s t : String) : (s ++ t).data = s.data ++ t.data := rfl

theorem mk_data (s : String) : String.mk s.data = s := rfl

/-! ### Character and digit-string lemmas -/

theorem isSpace_elim {c : Char} (h : isSpace c = true) :
    c = ' ' ∨ c = '\t' ∨ c = '\n' ∨ c = '\r' ∨ c = '\x0b' ∨ c = '\x0c' := by
  have h2 : ((((c = ' ' ∨ c = '\t') ∨ c = '\n') ∨ c = '\r') ∨ c = '\x0b') ∨ c = '\x0c' := by
    simpa [isSpace] using h
  tauto

theorem isSpace_false_of_isDigit {c : Char} (h : c.isDigit = true) : isSpace c = false := by
  by_contra hc
  rw [Bool.not_eq_false] at hc
  rcases isSpace_elim hc with rfl | rfl | rfl | rfl | rfl | rfl <;> exact absurd h (by decide)

theorem isDigit_ne {c : Char} (h : c.isDigit = true) :
    c ≠ '-' ∧ c ≠ '+' ∧ c ≠ '#' ∧ c ≠ '\n' ∧ c ≠ 'M' ∧ c ≠ 'A' := by
  refine ⟨?_, ?_, ?_, ?_, ?_, ?_⟩ <;> rintro rfl <;> exact absurd h (by decide)

theorem digitChar_isDigit (n : ℕ) : (digitChar n).isDigit = true := by
  unfold digitChar; split <;> decide

theorem digitVal_digitChar {n : ℕ} (h : n < 10) : digitVal (digitChar n) = n := by
  interval_cases n <;> decide

theorem natDigitsFuel_congr (n : ℕ) : ∀ f1 f2, n ≤ f1 → n ≤ f2 →
    natDigitsFuel f1 n = natDigitsFuel f2 n := by
  induction n using Nat.strong_induction_on with
  | _ n ih =>
    intro f1 f2 h1 h2
    rcases f1 with _ | f1' <;> rcases f2 with _ | f2'
    · rfl
    · have hn : n = 0 := by omega
      subst hn
      show [digitChar 0] = natDigitsFuel (f2' + 1) 0
      simp [natDigitsFuel]
    · have hn : n = 0 := by omega
      subst hn
      show natDigitsFuel (f1' + 1) 0 = [digitChar 0]
      simp [natDigitsFuel]
    · show natDigitsFuel (f1' + 1) n = natDigitsFuel (f2' + 1) n
      simp only [natDigitsFuel]
      split
      · rfl
      · next h10 =>
        rw [ih (n / 10) (Nat.div_lt_self (by omega) (by omega)) f1' f2' (by omega) (by omega)]

theorem natDigits_eq (n : ℕ) : natDigits n =
    if n < 10 then [digitChar n] else natDigits (n / 10) ++ [digitChar (n % 10)] := by
  show natDigitsFuel n n = _
  rcases n with _ | n'
  · simp [natDigitsFuel]
  · show natDigitsFuel (n' + 1) (n' + 1) = _
    simp only [natDigitsFuel]
    split
    · rfl
    · next h10 =>
      rw [natDigitsFuel_congr ((n' + 1) / 10) n' ((n' + 1) / 10) (by omega) (le_refl _)]
      rfl

theorem natDigits_ne_nil (n : ℕ) : natDigits n ≠ [] := by
  rw [natDigits_eq]; split <;> simp

theorem natDigits_digits (n : ℕ) : ∀ c ∈ natDigits n, c.isDigit = true := by
  induction n using Nat.strong_induction_on with
  | _ n ih =>
    rw [natDigits_eq]
    split
    · intro c hc
      rcases List.mem_singleton.1 hc with rfl
      exact digitChar_isDigit n
    · intro c hc
      rcases List.mem_append.1 hc with h1 | h2
      · exact ih (n / 10) (Nat.div_lt_self (by omega) (by omega)) c h1
      · rcases List.mem_singleton.1 h2 with rfl
        exact digitChar_isDigit _

theorem digitsVal_append (a : List Char) (c : Char) :
    digitsVal (a ++ [c]) = 10 * digitsVal a + digitVal c := by
  simp [digitsVal, List.foldl_append]

theorem digitsVal_natDigits (n : ℕ) : digitsVal (natDigits n) = n := by
  induction n using Nat.strong_induction_on with
  | _ n ih =>
    rw [natDigits_eq]
    split
    · next h =>
      simp [digitsVal, digitVal_digitChar h]
    · next h =>
      rw [digitsVal_append, ih (n / 10) (Nat.div_lt_self (by omega) (by omega)),
        digitVal_digitChar (by omega)]
      omega

theorem digitsToNat?_natDigits (n : ℕ) : digitsToNat? (natDigits n) = some n := by
  have h1 : (natDigits n).isEmpty = false := by
    simp [List.isEmpty_iff, natDigits_ne_nil n]
  have h2 : (natDigits n).all Char.isDigit = true := by
    rw [List.all_eq_true]; exact natDigits_digits n
  simp [digitsToNat?, h1, h2, digitsVal_natDigits]

theorem pyInt?_intStr (i : Int) : pyInt? (intStr i) = some i := by
  by_cases hneg : i < 0
  · rw [intStr, if_pos hneg]
    have habs : ((i.natAbs : ℤ)) = -i := Int.ofNat_natAbs_of_nonpos (by omega)
    simp only [pyInt?, data_mk]
    simp [digitsToNat?_natDigits, habs]
  · rw [intStr, if_neg hneg]
    have habs : ((i.natAbs : ℤ)) = i := Int.natAbs_of_nonneg (by omega)
    rcases hh : natDigits i.natAbs with _ | ⟨c, cs⟩
    · exact absurd hh (natDigits_ne_nil _)
    · have hcd : c.isDigit = true := by
        apply natDigits_digits i.natAbs
        rw [hh]; exact List.mem_cons_self ..
      have hne := isDigit_ne hcd
      simp only [pyInt?, data_mk, if_neg hne.1, if_neg hne.2.1]
      rw [← hh, digitsToNat?_natDigits]
      simp [habs]

theorem intStr_chars (i : Int) : ∀ c ∈ (intStr i).data, c = '-' ∨ c.isDigit = true := by
  unfold intStr; split
  · intro c hc
    rcases List.mem_cons.1 hc with rfl | hm
    · exact Or.inl rfl
    · exact Or.inr (natDigits_digits _ c hm)
  · intro c hc
    exact Or.inr (natDigits_digits _ c hc)

theorem intStr_ne_nil (i : Int) : (intStr i).data ≠ [] := by
  unfold intStr; split
  · simp
  · exact natDigits_ne_nil _

theorem intStr_nonspace (i : Int) : ∀ c ∈ (intStr i).data, isSpace c = false := by
  intro c hc
  rcases intStr_chars i c hc with rfl | hd
  · decide
  · exact isSpace_false_of_isDigit hd

theorem intStr_no_hash (i : Int) : ∀ c ∈ (intStr i).data, c ≠ '#' := by
  intro c hc
  rcases intStr_chars i c hc with rfl | hd
  · decide
  · exact (isDigit_ne hd).2.2.1

theorem intStr_no_newline (i : Int) : ∀ c ∈ (intStr i).data, c ≠ '\n' := by
  intro c hc
  rcases intStr_chars i c hc with rfl | hd
  · decide
  · exact (isDigit_ne hd).2.2.2.1

theorem intStr_nonneg_head (i : Int) (h : 0 ≤ i) :
    ∃ c cs, (intStr i).data = c :: cs ∧ c.isDigit = true := by
  rw [intStr, if_neg (by omega)]
  rcases hh : natDigits i.natAbs with _ | ⟨c, cs⟩
  · exact absurd hh (natDigits_ne_nil _)
  · refine ⟨c, cs, by simp [hh], ?_⟩
    apply natDigits_digits i.natAbs
    rw [hh]; exact List.mem_cons_self ..

theorem formatFixed8_chars (q : ℚ) :
    ∀ c ∈ (formatFixed8 q).data, c.isDigit = true ∨ c = '.' := by
  unfold formatFixed8 padZeros8
  intro c hc
  simp only [data_mk, List.mem_append, List.mem_cons, List.mem_replicate] at hc
  rcases hc with h1 | h2 | h3
  · exact Or.inl (natDigits_digits _ c h1)
  · exact Or.inr h2
  · rcases h3 with h3 | h3
    · rcases h3 with ⟨-, rfl⟩
      exact Or.inl (by decide)
    · exact Or.inl (natDigits_digits _ c h3)

theorem formatFixed8_nonspace (q : ℚ) : ∀ c ∈ (formatFixed8 q).data, isSpace c = false := by
  intro c hc
  rcases formatFixed8_chars q c hc with hd | rfl
  · exact isSpace_false_of_isDigit hd
  · decide

theorem formatFixed8_no_hash (q : ℚ) : ∀ c ∈ (formatFixed8 q).data, c ≠ '#' := by
  intro c hc
  rcases formatFixed8_chars q c hc with hd | rfl
  · exact (isDigit_ne hd).2.2.1
  · decide

/-! ### Bridging lemmas: the integer computations used in the embedding agree
with the rational formulas of the source -/

theorem rat_mul_den (q : ℚ) : q * (q.den : ℚ) = (q.num : ℚ) := by
  have hden : ((q.den : ℚ)) ≠ 0 := by exact_mod_cast q.den_nz
  have h := Rat.num_div_den q
  calc q * (q.den : ℚ) = ((q.num : ℚ) / (q.den : ℚ)) * (q.den : ℚ) := by rw [h]
    _ = (q.num : ℚ) := div_mul_cancel₀ _ hden

theorem massClose_iff (m ref : ℚ) : massClose m ref = true ↔ |m - ref| < 1 := by
  unfold massClose
  rw [decide_eq_true_eq]
  have hm0 : (0 : ℚ) < (m.den : ℚ) := by exact_mod_cast m.den_pos
  have hr0 : (0 : ℚ) < (ref.den : ℚ) := by exact_mod_cast ref.den_pos
  have hdd : (0 : ℚ) < (m.den : ℚ) * (ref.den : ℚ) := mul_pos hm0 hr0
  have hth : ((m.num * (ref.den : ℤ) - ref.num * (m.den : ℤ) : ℤ) : ℚ) =
      (m - ref) * ((m.den : ℚ) * (ref.den : ℚ)) := by
    push_cast
    rw [sub_mul, show m * ((m.den : ℚ) * (ref.den : ℚ)) =
        (m * (m.den : ℚ)) * (ref.den : ℚ) by ring,
      show ref * ((m.den : ℚ) * (ref.den : ℚ)) = (ref * (ref.den : ℚ)) * (m.den : ℚ) by ring,
      rat_mul_den m, rat_mul_den ref]
  have habs : |m - ref| * ((m.den : ℚ) * (ref.den : ℚ)) =
      (((m.num * (ref.den : ℤ) - ref.num * (m.den : ℤ)).natAbs : ℕ) : ℚ) := by
    rw [Int.cast_natAbs, Int.cast_abs, hth, abs_mul, abs_of_pos hdd]
  constructor
  · intro h
    by_contra hcon
    push_neg at hcon
    have h4 : (m.den : ℚ) * (ref.den : ℚ) ≤ |m - ref| * ((m.den : ℚ) * (ref.den : ℚ)) := by
      nlinarith
    rw [habs] at h4
    have h5 : ((m.den * ref.den : ℕ) : ℚ) ≤
        (((m.num * (ref.den : ℤ) - ref.num * (m.den : ℤ)).natAbs : ℕ) : ℚ) := by
      calc ((m.den * ref.den : ℕ) : ℚ) = (m.den : ℚ) * (ref.den : ℚ) := by push_cast; ring
        _ ≤ _ := h4
    have h6 : m.den * ref.den ≤ (m.num * (ref.den : ℤ) - ref.num * (m.den : ℤ)).natAbs := by
      exact_mod_cast h5
    omega
  · intro h
    have h4 : |m - ref| * ((m.den : ℚ) * (ref.den : ℚ)) <
        1 * ((m.den : ℚ) * (ref.den : ℚ)) := mul_lt_mul_of_pos_right h hdd
    rw [habs, one_mul] at h4
    have h5 : (((m.num * (ref.den : ℤ) - ref.num * (m.den : ℤ)).natAbs : ℕ) : ℚ) <
        ((m.den * ref.den : ℕ) : ℚ) := by
      calc (((m.num * (ref.den : ℤ) - ref.num * (m.den : ℤ)).natAbs : ℕ) : ℚ)
          < (m.den : ℚ) * (ref.den : ℚ) := h4
        _ = ((m.den * ref.den : ℕ) : ℚ) := by push_cast; ring
    exact_mod_cast h5

theorem mkRat_decimal (a b k : ℕ) :
    mkRat ((a * 10 ^ k + b : ℕ)) ((10 ^ k : ℕ)) = (a : ℚ) + (b : ℚ) / (10 : ℚ) ^ k := by
  rw [Rat.mkRat_eq_div]
  have hk : ((10 : ℚ)) ^ k ≠ 0 := by positivity
  field_simp

theorem mkRat_int (a : ℕ) : mkRat ((a : ℕ)) 1 = (a : ℚ) := by
  rw [Rat.mkRat_one]
  norm_cast

theorem formatFixed8_arg (q : ℚ) (h : q.den ∣ 100000000) :
    q.num * (((100000000 : ℕ) / q.den : ℕ) : ℤ) = (q * 100000000).num := by
  obtain ⟨c, hc⟩ := h
  have hden : q.den ≠ 0 := q.den_nz
  have hdiv : (100000000 : ℕ) / q.den = c := by
    rw [hc]
    exact Nat.mul_div_cancel_left c (Nat.pos_of_ne_zero hden)
  have hval : ((q.num * (c : ℤ) : ℤ) : ℚ) = q * 100000000 := by
    push_cast
    calc (q.num : ℚ) * (c : ℚ) = (q * (q.den : ℚ)) * (c : ℚ) := by rw [rat_mul_den]
      _ = q * ((q.den : ℚ) * (c : ℚ)) := by ring
      _ = q * (((q.den * c : ℕ)) : ℚ) := by push_cast; ring
      _ = q * 100000000 := by rw [← hc]; norm_num
  rw [hdiv, ← hval, Rat.num_intCast]

/-! ### Whitespace splitting lemmas -/

theorem splitWsAux_spaces (sp : List Char) (hsp : ∀ c ∈ sp, isSpace c = true) :
    ∀ l, splitWsAux (sp ++ l) [] = splitWsAux l [] := by
  induction sp with
  | nil => intro l; rfl
  | cons c cs ih =>
    intro l
    have hc : isSpace c = true := hsp c (List.mem_cons_self ..)
    have hcs : ∀ x ∈ cs, isSpace x = true := fun x hx => hsp x (List.mem_cons_of_mem c hx)
    simp only [List.cons_append, splitWsAux, hc, if_true, List.isEmpty_nil]
    exact ih hcs l

theorem splitWsAux_token (tok : List Char) (htok : ∀ c ∈ tok, isSpace c = false) :
    ∀ rest acc, splitWsAux (tok ++ rest) acc = splitWsAux rest (tok.reverse ++ acc) := by
  induction tok with
  | nil => intro rest acc; simp
  | cons c cs ih =>
    intro rest acc
    have hc : isSpace c = false := htok c (List.mem_cons_self ..)
    have hcs : ∀ x ∈ cs, isSpace x = false := fun x hx => htok x (List.mem_cons_of_mem c hx)
    simp only [List.cons_append, splitWsAux, hc, Bool.false_eq_true, if_false, List.append_eq]
    rw [ih hcs rest (c :: acc)]
    simp

theorem splitWsL_token_cons (tok rest : List Char) (hne : tok ≠ [])
    (htok : ∀ c ∈ tok, isSpace c = false)
    (hrest : rest = [] ∨ isSpace (rest.headD ' ') = true) :
    splitWsL (tok ++ rest) = tok :: splitWsL rest := by
  unfold splitWsL
  rw [splitWsAux_token tok htok rest []]
  rcases hrest with rfl | hsp
  · have : tok.reverse.isEmpty = false := by
      simp [List.isEmpty_iff, hne]
    simp [splitWsAux, this]
  · rcases rest with _ | ⟨c, cs⟩
    · have : tok.reverse.isEmpty = false := by
        simp [List.isEmpty_iff, hne]
      simp [splitWsAux, this]
    · simp only [List.headD_cons] at hsp
      have hv : tok.reverse.isEmpty = false := by
        simp [List.isEmpty_iff, hne]
      simp [splitWsAux, hsp, hv]

theorem splitWsAux_tokens : ∀ (l acc : List Char), (∀ c ∈ acc, isSpace c = false) →
    ∀ t ∈ splitWsAux l acc, t ≠ [] ∧ ∀ c ∈ t, isSpace c = false := by
  intro l
  induction l with
  | nil =>
    intro acc hacc t ht
    simp only [splitWsAux] at ht
    split at ht
    · simp at ht
    · next hemp =>
      rcases List.mem_singleton.1 ht with rfl
      refine ⟨by simpa [List.isEmpty_iff] using hemp, fun c hc => hacc c ?_⟩
      exact List.mem_reverse.1 hc
  | cons c cs ih =>
    intro acc hacc t ht
    simp only [splitWsAux] at ht
    split at ht
    · split at ht
      · exact ih [] (by simp) t ht
      · next hemp =>
        rcases List.mem_cons.1 ht with rfl | hm
        · refine ⟨by simpa [List.isEmpty_iff] using hemp, fun x hx => hacc x ?_⟩
          exact List.mem_reverse.1 hx
        · exact ih [] (by simp) t hm
    · next hc =>
      refine ih (c :: acc) ?_ t ht
      intro x hx
      rcases List.mem_cons.1 hx with rfl | hm
      · exact (Bool.not_eq_true _) ▸ hc
      · exact hacc x hm

theorem splitWsL_tokens (l : List Char) :
    ∀ t ∈ splitWsL l, t ≠ [] ∧ ∀ c ∈ t, isSpace c = false :=
  splitWsAux_tokens l [] (by simp)

theorem pySplitWs_tokens (s : String) :
    ∀ t ∈ pySplitWs s, t.data ≠ [] ∧ ∀ c ∈ t.data, isSpace c = false := by
  intro t ht
  unfold pySplitWs at ht
  rcases List.mem_map.1 ht with ⟨tc, htc, rfl⟩
  exact splitWsL_tokens s.data tc htc

/-! ### Strip lemmas -/

theorem dropWhile_spaces_append (sp l : List Char) (hsp : ∀ c ∈ sp, isSpace c = true) :
    (sp ++ l).dropWhile isSpace = l.dropWhile isSpace := by
  induction sp with
  | nil => rfl
  | cons c cs ih =>
    have hc : isSpace c = true := hsp c (List.mem_cons_self ..)
    simp only [List.cons_append, List.dropWhile_cons, hc, if_true]
    exact ih (fun x hx => hsp x (List.mem_cons_of_mem c hx))

theorem dropWhile_append_cases (p : Char → Bool) (l₁ l₂ : List Char) :
    (l₁ ++ l₂).dropWhile p =
      if (l₁.dropWhile p).isEmpty then l₂.dropWhile p else l₁.dropWhile p ++ l₂ := by
  induction l₁ with
  | nil => simp
  | cons c cs ih =>
    by_cases hc : p c = true
    · simpa [List.dropWhile_cons, hc] using ih
    · simp [List.dropWhile_cons, hc]

theorem stripEnd_append_spaces (l sp : List Char) (hsp : ∀ c ∈ sp, isSpace c = true) :
    stripEnd (l ++ sp) = stripEnd l := by
  unfold stripEnd
  rw [List.reverse_append, dropWhile_spaces_append sp.reverse l.reverse
    (fun c hc => hsp c (List.mem_reverse.1 hc))]

theorem stripEnd_last_nonspace (l : List Char) (c : Char) (hc : isSpace c = false) :
    stripEnd (l ++ [c]) = l ++ [c] := by
  unfold stripEnd
  rw [List.reverse_append]
  simp only [List.reverse_cons, List.reverse_nil, List.nil_append, List.singleton_append,
    List.dropWhile_cons, hc, Bool.false_eq_true, if_false]
  simp

theorem pyStripL_spaces_append (sp l : List Char) (hsp : ∀ c ∈ sp, isSpace c = true) :
    pyStripL (sp ++ l) = pyStripL l := by
  unfold pyStripL
  rw [dropWhile_spaces_append sp l hsp]

theorem pyStripL_append_spaces (l sp : List Char) (hsp : ∀ c ∈ sp, isSpace c = true) :
    pyStripL (l ++ sp) = pyStripL l := by
  unfold pyStripL
  rw [dropWhile_append_cases]
  split
  · next hemp =>
    have hsp2 : sp.dropWhile isSpace = [] := by
      rw [List.dropWhile_eq_nil_iff]
      exact hsp
    rw [hsp2]
    have hl : l.dropWhile isSpace = [] := by
      simpa [List.isEmpty_iff] using hemp
    rw [hl]
  · exact stripEnd_append_spaces _ sp hsp

theorem pyStripL_of_ends (l : List Char) (c d : Char) (m : List Char)
    (hc : isSpace c = false) (hd : isSpace d = false) (h : l = c :: m ++ [d]) :
    pyStripL l = l := by
  subst h
  unfold pyStripL
  have h1 : List.dropWhile isSpace (c :: (m ++ [d])) = c :: (m ++ [d]) := by
    rw [List.dropWhile_cons]
    simp [hc]
  rw [show (c :: m ++ [d] : List Char) = c :: (m ++ [d]) from rfl, h1]
  rw [show (c :: (m ++ [d]) : List Char) = (c :: m) ++ [d] by simp]
  exact stripEnd_last_nonspace _ d hd

theorem pyStripL_singleton (c : Char) (hc : isSpace c = false) : pyStripL [c] = [c] := by
  unfold pyStripL
  simp only [List.dropWhile_cons, hc, Bool.false_eq_true, if_false, List.dropWhile_nil]
  exact stripEnd_last_nonspace [] c hc

theorem pyStripL_eq_nil_iff (l : List Char) :
    pyStripL l = [] ↔ ∀ c ∈ l, isSpace c = true := by
  constructor
  · intro h c hc
    unfold pyStripL stripEnd at h
    have h2 : (l.dropWhile isSpace).reverse.dropWhile isSpace = [] :=
      List.reverse_eq_nil_iff.1 h
    have h3 : ∀ x ∈ l.dropWhile isSpace, isSpace x = true := by
      intro x hx
      exact List.dropWhile_eq_nil_iff.1 h2 x (List.mem_reverse.2 hx)
    rw [← @List.takeWhile_append_dropWhile _ isSpace l] at hc
    rcases List.mem_append.1 hc with h4 | h4
    · exact List.mem_takeWhile_imp h4
    · exact h3 c h4
  · intro h
    have h2 : l.dropWhile isSpace = [] := List.dropWhile_eq_nil_iff.2 h
    unfold pyStripL
    rw [h2]
    rfl

/-! ### takeWhile (comment stripping) lemmas -/

theorem takeWhile_append_all (p : Char → Bool) (l₁ l₂ : List Char)
    (h : ∀ c ∈ l₁, p c = true) :
    (l₁ ++ l₂).takeWhile p = l₁ ++ l₂.takeWhile p := by
  induction l₁ with
  | nil => rfl
  | cons c cs ih =>
    have hc : p c = true := h c (List.mem_cons_self ..)
    simp only [List.cons_append, List.takeWhile_cons, hc, if_true, List.cons_inj_right]
    exact ih (fun x hx => h x (List.mem_cons_of_mem c hx))

theorem takeWhile_stop (p : Char → Bool) (c : Char) (l : List Char) (h : p c = false) :
    (c :: l).takeWhile p = [] := by
  simp [List.takeWhile_cons, h]

/-! ### Splitting a spaced concatenation of tokens -/

/-- A line built as alternating space runs and tokens, ending in a newline. -/
def spacedConcat : List (List Char × List Char) → List Char
  | [] => ['\n']
  | (sp, tk) :: rest => sp ++ tk ++ spacedConcat rest

theorem splitWsL_spacedConcat (ps : List (List Char × List Char))
    (h : ∀ pr ∈ ps, pr.1 ≠ [] ∧ (∀ c ∈ pr.1, isSpace c = true) ∧ pr.2 ≠ [] ∧
      (∀ c ∈ pr.2, isSpace c = false)) :
    splitWsL (spacedConcat ps) = ps.map (fun pr => pr.2) := by
  induction ps with
  | nil =>
    show splitWsL ['\n'] = []
    rfl
  | cons pr rest ih =>
    obtain ⟨hsp1, hsp2, htk1, htk2⟩ := h pr (List.mem_cons_self ..)
    have hrest := fun x hx => h x (List.mem_cons_of_mem pr hx)
    rcases pr with ⟨sp, tk⟩
    show splitWsL (sp ++ tk ++ spacedConcat rest) = tk :: rest.map (fun pr => pr.2)
    rw [show (sp ++ tk ++ spacedConcat rest : List Char) = sp ++ (tk ++ spacedConcat rest) by
      simp]
    unfold splitWsL
    rw [splitWsAux_spaces sp hsp2 (tk ++ spacedConcat rest)]
    have hhead : spacedConcat rest = [] ∨ isSpace ((spacedConcat rest).headD ' ') = true := by
      right
      rcases rest with _ | ⟨⟨sp', tk'⟩, rest'⟩
      · show isSpace (['\n'].headD ' ') = true
        decide
      · obtain ⟨h1, h2, -, -⟩ := hrest (sp', tk') (List.mem_cons_self ..)
        obtain ⟨c', cs', hsp'⟩ := List.exists_cons_of_ne_nil h1
        have hsp'2 : sp' = c' :: cs' := hsp'
        show isSpace ((sp' ++ tk' ++ spacedConcat rest').headD ' ') = true
        rw [hsp'2]
        simp only [List.cons_append, List.headD_cons]
        exact h2 c' (by rw [hsp']; exact List.mem_cons_self ..)
    have hstep := splitWsL_token_cons tk (spacedConcat rest) htk1 htk2 hhead
    unfold splitWsL at hstep
    have ih2 := ih hrest
    unfold splitWsL at ih2
    rw [hstep, ih2]

/-! ### Stable sort lemmas -/

theorem insKey_perm {α β : Type} [LinearOrder β] (key : α → β) (p : α) (l : List α) :
    List.Perm (insKey key p l) (p :: l) := by
  induction l with
  | nil => exact List.Perm.refl _
  | cons q qs ih =>
    unfold insKey
    split
    · exact (ih.cons q).trans (List.Perm.swap p q qs)
    · exact List.Perm.refl _

theorem sortKey_perm {α β : Type} [LinearOrder β] (key : α → β) (l : List α) :
    List.Perm (sortKey key l) l := by
  induction l with
  | nil => exact List.Perm.refl _
  | cons a l ih =>
    exact (insKey_perm key a (sortKey key l)).trans (ih.cons a)

theorem sortKey_length {α β : Type} [LinearOrder β] (key : α → β) (l : List α) :
    (sortKey key l).length = l.length :=
  (sortKey_perm key l).length_eq

theorem insKey_pairwise {α β : Type} [LinearOrder β] (key : α → β) (p : α) (l : List α)
    (h : l.Pairwise (fun a b => key a ≤ key b)) :
    (insKey key p l).Pairwise (fun a b => key a ≤ key b) := by
  induction l with
  | nil => simp [insKey]
  | cons q qs ih =>
    rw [List.pairwise_cons] at h
    unfold insKey
    split
    · next hlt =>
      rw [List.pairwise_cons]
      constructor
      · intro r hr
        rcases List.mem_cons.1 ((insKey_perm key p qs).mem_iff.1 hr) with rfl | hm
        · exact le_of_lt hlt
        · exact h.1 r hm
      · exact ih h.2
    · next hge =>
      rw [List.pairwise_cons]
      constructor
      · intro r hr
        rcases List.mem_cons.1 hr with rfl | hm
        · exact le_of_not_lt hge
        · exact le_trans (le_of_not_lt hge) (h.1 r hm)
      · exact List.pairwise_cons.2 h

theorem sortKey_pairwise {α β : Type} [LinearOrder β] (key : α → β) (l : List α) :
    (sortKey key l).Pairwise (fun a b => key a ≤ key b) := by
  induction l with
  | nil => simp [sortKey]
  | cons a l ih => exact insKey_pairwise key a (sortKey key l) ih

theorem sortKey_eq_of_pairwise {α β : Type} [LinearOrder β] (key : α → β) (l : List α)
    (h : l.Pairwise (fun a b => key a ≤ key b)) : sortKey key l = l := by
  induction l with
  | nil => rfl
  | cons a l ih =>
    rw [List.pairwise_cons] at h
    show insKey key a (sortKey key l) = a :: l
    rw [ih h.2]
    rcases l with _ | ⟨q, qs⟩
    · rfl
    · unfold insKey
      rw [if_neg]
      exact not_lt.2 (h.1 q (List.mem_cons_self ..))

theorem insKey_filter {α β : Type} [LinearOrder β] (key : α → β) (p : α) (l : List α)
    (z : β) :
    (insKey key p l).filter (fun a => key a == z) =
      if key p = z then p :: l.filter (fun a => key a == z)
      else l.filter (fun a => key a == z) := by
  induction l with
  | nil =>
    show List.filter (fun a => key a == z) [p] = _
    by_cases hz : key p = z
    · simp [List.filter_cons, hz]
    · have hp : (key p == z) = false := by simp [hz]
      simp [List.filter_cons, hp, hz]
  | cons q qs ih =>
    unfold insKey
    split
    · next hlt =>
      by_cases hqz : key q = z
      · have hpz : key p ≠ z := by
          intro hpz
          rw [hqz, ← hpz] at hlt
          exact lt_irrefl _ hlt
        rw [if_neg hpz]
        simp only [List.filter_cons, hqz]
        simp only [beq_self_eq_true, if_true]
        rw [ih, if_neg hpz]
      · have hq : (key q == z) = false := by simp [hqz]
        simp only [List.filter_cons, hq, Bool.false_eq_true, if_false]
        rw [ih]
    · next hge =>
      by_cases hpz : key p = z
      · rw [if_pos hpz]
        simp [List.filter_cons, hpz]
      · rw [if_neg hpz]
        have hp : (key p == z) = false := by simp [hpz]
        simp only [List.filter_cons, hp, Bool.false_eq_true, if_false]

theorem sortKey_filter {α β : Type} [LinearOrder β] (key : α → β) (l : List α) (z : β) :
    (sortKey key l).filter (fun a => key a == z) = l.filter (fun a => key a == z) := by
  induction l with
  | nil => rfl
  | cons a l ih =>
    show (insKey key a (sortKey key l)).filter _ = _
    rw [insKey_filter]
    by_cases hz : key a = z
    · rw [if_pos hz, ih]
      simp [List.filter_cons, hz]
    · rw [if_neg hz, ih]
      have ha : (key a == z) = false := by simp [hz]
      simp [List.filter_cons, ha]

/-! ### Dict (association list with Python semantics) lemmas -/

theorem dictInsert_fresh {α : Type} (d : List (Int × α)) (k : Int) (v : α)
    (h : ∀ p ∈ d, p.1 ≠ k) : dictInsert d k v = d ++ [(k, v)] := by
  unfold dictInsert
  rw [if_neg]
  intro hany
  rcases List.any_eq_true.1 hany with ⟨p, hp, hbeq⟩
  exact h p hp (by simpa using hbeq)

theorem dictGet?_nil {α : Type} (k : Int) : dictGet? ([] : List (Int × α)) k = none := rfl

theorem dictGet?_cons {α : Type} (k₁ : Int) (v₁ : α) (d : List (Int × α)) (k : Int) :
    dictGet? ((k₁, v₁) :: d) k = if k₁ = k then some v₁ else dictGet? d k := by
  unfold dictGet?
  by_cases h : k₁ = k
  · simp [List.find?_cons, h]
  · have hb : ((k₁, v₁).1 == k) = false := by simpa using h
    simp [List.find?_cons, hb, h]

theorem dictGet?_append_right {α : Type} (d₁ d₂ : List (Int × α)) (k : Int)
    (h : ∀ p ∈ d₁, p.1 ≠ k) : dictGet? (d₁ ++ d₂) k = dictGet? d₂ k := by
  induction d₁ with
  | nil => rfl
  | cons p d ih =>
    rcases p with ⟨k₁, v₁⟩
    rw [List.cons_append, dictGet?_cons,
      if_neg (h (k₁, v₁) (List.mem_cons_self ..)), ih]
    intro q hq
    exact h q (List.mem_cons_of_mem _ hq)

theorem dictGet?_map_replace {α : Type} (d : List (Int × α)) (k : Int) (v : α) :
    dictGet? (d.map (fun p => if p.1 == k then (k, v) else p)) k =
      if d.any (fun p => p.1 == k) then some v else none := by
  induction d with
  | nil => rfl
  | cons p d ih =>
    rcases p with ⟨k₁, v₁⟩
    by_cases h : k₁ = k
    · subst h
      simp only [List.map_cons, beq_self_eq_true, if_true, List.any_cons, Bool.true_or]
      rw [dictGet?_cons, if_pos rfl]
    · have hb : ((k₁, v₁).1 == k) = false := by simpa using h
      simp only [List.map_cons, hb, Bool.false_eq_true, if_false, List.any_cons,
        Bool.false_or]
      rw [dictGet?_cons, if_neg h, ih]

theorem dictGet?_insert_self {α : Type} (d : List (Int × α)) (k : Int) (v : α) :
    dictGet? (dictInsert d k v) k = some v := by
  unfold dictInsert
  split
  · next hany =>
    rw [dictGet?_map_replace, if_pos hany]
  · next hany =>
    have hfresh : ∀ p ∈ d, p.1 ≠ k := by
      intro p hp hk
      exact hany (List.any_eq_true.2 ⟨p, hp, by simpa using hk⟩)
    rw [dictGet?_append_right d [(k, v)] k hfresh, dictGet?_cons, if_pos rfl]

theorem dictGet?_map_replace_ne {α : Type} (d : List (Int × α)) (k k' : Int) (v : α)
    (h : k' ≠ k) :
    dictGet? (d.map (fun p => if p.1 == k then (k, v) else p)) k' = dictGet? d k' := by
  induction d with
  | nil => rfl
  | cons p d ih =>
    rcases p with ⟨k₁, v₁⟩
    by_cases hk : k₁ = k
    · subst hk
      simp only [List.map_cons, beq_self_eq_true, if_true]
      rw [dictGet?_cons, dictGet?_cons, if_neg (fun hh => h hh.symm),
        if_neg (fun hh => h hh.symm)]
      exact ih
    · have hb : ((k₁, v₁).1 == k) = false := by simpa using hk
      simp only [List.map_cons, hb, Bool.false_eq_true, if_false]
      rw [dictGet?_cons, dictGet?_cons]
      split
      · rfl
      · exact ih

theorem dictGet?_append_single_ne {α : Type} (d : List (Int × α)) (k k' : Int) (v : α)
    (h : k' ≠ k) : dictGet? (d ++ [(k, v)]) k' = dictGet? d k' := by
  induction d with
  | nil =>
    simp only [List.nil_append]
    rw [dictGet?_cons, if_neg (fun hh => h hh.symm), dictGet?_nil]
  | cons p d ih =>
    rcases p with ⟨k₁, v₁⟩
    rw [List.cons_append, dictGet?_cons, dictGet?_cons]
    split
    · rfl
    · exact ih

theorem dictGet?_insert_ne {α : Type} (d : List (Int × α)) (k k' : Int) (v : α)
    (h : k' ≠ k) : dictGet? (dictInsert d k v) k' = dictGet? d k' := by
  unfold dictInsert
  split
  · exact dictGet?_map_replace_ne d k k' v h
  · exact dictGet?_append_single_ne d k k' v h

theorem dictInsert_keys {α : Type} (d : List (Int × α)) (k : Int) (v : α) :
    (dictInsert d k v).map (fun p => p.1) =
      if d.any (fun p => p.1 == k) then d.map (fun p => p.1)
      else d.map (fun p => p.1) ++ [k] := by
  unfold dictInsert
  split
  · rw [List.map_map]
    apply List.map_congr_left
    intro p hp
    by_cases hk : p.1 = k
    · simp [hk]
    · have hb : (p.1 == k) = false := by simpa using hk
      simp [hb, hk]
  · rw [List.map_append]
    rfl

theorem dictInsert_keys_nodup {α : Type} (d : List (Int × α)) (k : Int) (v : α)
    (h : (d.map (fun p => p.1)).Nodup) : ((dictInsert d k v).map (fun p => p.1)).Nodup := by
  rw [dictInsert_keys]
  split
  · exact h
  · next hany =>
    have hk : k ∉ d.map (fun p => p.1) := by
      intro hm
      rcases List.mem_map.1 hm with ⟨p, hp, hpk⟩
      exact hany (List.any_eq_true.2 ⟨p, hp, by simpa using hpk⟩)
    simp [List.nodup_append, h, hk]

theorem dictInsert_mem {α : Type} (d : List (Int × α)) (k : Int) (v : α) :
    ∀ q ∈ dictInsert d k v, q ∈ d ∨ q.2 = v := by
  unfold dictInsert
  split
  · intro q hq
    rcases List.mem_map.1 hq with ⟨p, hp, hpq⟩
    by_cases hk : (p.1 == k) = true
    · rw [if_pos hk] at hpq
      right
      rw [← hpq]
    · rw [if_neg hk] at hpq
      left
      rw [← hpq]
      exact hp
  · intro q hq
    rcases List.mem_append.1 hq with hm | hm
    · exact Or.inl hm
    · rcases List.mem_singleton.1 hm with rfl
      exact Or.inr rfl

theorem foldl_dictInsert_append (ps : List (Int × String)) :
    ∀ d, (∀ p ∈ ps, ∀ q ∈ d, q.1 ≠ p.1) → (ps.map (fun p => p.1)).Nodup →
    ps.foldl (fun d p => dictInsert d p.1 p.2) d = d ++ ps := by
  induction ps with
  | nil => intro d _ _; simp
  | cons p rest ih =>
    intro d hd hn
    rcases p with ⟨k, v⟩
    simp only [List.foldl_cons]
    rw [dictInsert_fresh d k v (fun q hq => hd (k, v) (List.mem_cons_self ..) q hq)]
    rw [List.map_cons, List.nodup_cons] at hn
    rw [ih (d ++ [(k, v)]) ?_ hn.2]
    · simp
    · intro p' hp' q hq
      rcases List.mem_append.1 hq with hm | hm
      · exact hd p' (List.mem_cons_of_mem _ hp') q hm
      · rcases List.mem_singleton.1 hm with rfl
        intro hkk
        apply hn.1
        rw [hkk]
        exact List.mem_map.2 ⟨p', hp', rfl⟩

/-! ### Mapping-builder spec lemmas -/

/-- The association list `tmLoop` builds when all keys are fresh. -/
def tmSpec : Int → List (Int × String) → List (Int × Int)
  | _, [] => []
  | n, p :: rest => (p.1, n) :: tmSpec (n + 1) rest

/-- The association list `neLoop` builds (its keys `n, n+1, ...` are always
fresh). -/
def neSpec : Int → List (Int × String) → List (Int × String)
  | _, [] => []
  | n, p :: rest => (n, p.2) :: neSpec (n + 1) rest

theorem tmLoop_eq (l : List (Int × String)) :
    ∀ n d, (∀ p ∈ l, ∀ q ∈ d, q.1 ≠ p.1) → (l.map (fun p => p.1)).Nodup →
    tmLoop n d l = d ++ tmSpec n l := by
  induction l with
  | nil => intro n d _ _; simp [tmLoop, tmSpec]
  | cons p rest ih =>
    intro n d hd hn
    rw [List.map_cons, List.nodup_cons] at hn
    show tmLoop (n + 1) (dictInsert d p.1 n) (rest) = d ++ tmSpec n (p :: rest)
    rw [dictInsert_fresh d p.1 n (fun q hq => hd p (List.mem_cons_self ..) q hq)]
    rw [ih (n + 1) (d ++ [(p.1, n)]) ?_ hn.2]
    · simp [tmSpec]
    · intro p' hp' q hq
      rcases List.mem_append.1 hq with hm | hm
      · exact hd p' (List.mem_cons_of_mem _ hp') q hm
      · rcases List.mem_singleton.1 hm with rfl
        intro hkk
        apply hn.1
        rw [hkk]
        exact List.mem_map.2 ⟨p', hp', rfl⟩

theorem type_mapping_eq (l : List (Int × String)) (hn : (l.map (fun p => p.1)).Nodup) :
    type_mapping l = tmSpec 1 l := by
  unfold type_mapping
  rw [tmLoop_eq l 1 [] (by simp) hn]
  simp

theorem neLoop_eq (l : List (Int × String)) :
    ∀ n d, (∀ q ∈ d, q.1 < n) → neLoop n d l = d ++ neSpec n l := by
  induction l with
  | nil => intro n d _; simp [neLoop, neSpec]
  | cons p rest ih =>
    intro n d hd
    show neLoop (n + 1) (dictInsert d n p.2) rest = d ++ neSpec n (p :: rest)
    rw [dictInsert_fresh d n p.2 (fun q hq => ne_of_lt (hd q hq))]
    rw [ih (n + 1) (d ++ [(n, p.2)]) ?_]
    · simp [neSpec]
    · intro q hq
      rcases List.mem_append.1 hq with hm | hm
      · exact lt_trans (hd q hm) (by omega)
      · rcases List.mem_singleton.1 hm with rfl
        omega

theorem new_type_to_element_eq (l : List (Int × String)) :
    new_type_to_element l = neSpec 1 l := by
  unfold new_type_to_element
  rw [neLoop_eq l 1 [] (by simp)]
  simp

theorem tmSpec_snd (l : List (Int × String)) :
    ∀ n, (tmSpec n l).map (fun p => p.2) = rangeInt n l.length := by
  induction l with
  | nil => intro n; rfl
  | cons p rest ih =>
    intro n
    simp only [tmSpec, List.map_cons, List.length_cons, rangeInt]
    rw [ih (n + 1)]

theorem tmSpec_fst (l : List (Int × String)) :
    ∀ n, (tmSpec n l).map (fun p => p.1) = l.map (fun p => p.1) := by
  induction l with
  | nil => intro n; rfl
  | cons p rest ih =>
    intro n
    simp only [tmSpec, List.map_cons]
    rw [ih (n + 1)]

theorem neSpec_fst (l : List (Int × String)) :
    ∀ n, (neSpec n l).map (fun p => p.1) = rangeInt n l.length := by
  induction l with
  | nil => intro n; rfl
  | cons p rest ih =>
    intro n
    simp only [neSpec, List.map_cons, List.length_cons, rangeInt]
    rw [ih (n + 1)]

theorem neSpec_snd (l : List (Int × String)) :
    ∀ n, (neSpec n l).map (fun p => p.2) = l.map (fun p => p.2) := by
  induction l with
  | nil => intro n; rfl
  | cons p rest ih =>
    intro n
    simp only [neSpec, List.map_cons]
    rw [ih (n + 1)]

theorem neSpec_length (l : List (Int × String)) : ∀ n, (neSpec n l).length = l.length := by
  induction l with
  | nil => intro n; rfl
  | cons p rest ih =>
    intro n
    simp only [neSpec, List.length_cons, ih (n + 1)]

theorem neSpec_idem (l : List (Int × String)) : ∀ n, neSpec n (neSpec n l) = neSpec n l := by
  induction l with
  | nil => intro n; rfl
  | cons p rest ih =>
    intro n
    simp only [neSpec, List.cons_inj_right]
    exact ih (n + 1)

theorem tmSpec_of_neSpec (l : List (Int × String)) :
    ∀ n, tmSpec n (neSpec n l) = (rangeInt n l.length).map (fun k => (k, k)) := by
  induction l with
  | nil => intro n; rfl
  | cons p rest ih =>
    intro n
    simp only [neSpec, tmSpec, List.length_cons, rangeInt, List.map_cons]
    rw [ih (n + 1)]

/-! ### rangeInt lemmas -/

theorem rangeInt_mem : ∀ (len : ℕ) (n k : Int), k ∈ rangeInt n len → n ≤ k ∧ k < n + len := by
  intro len
  induction len with
  | zero => intro n k h; simp [rangeInt] at h
  | succ m ih =>
    intro n k h
    rcases List.mem_cons.1 h with rfl | hm
    · omega
    · have := ih (n + 1) k hm
      omega

theorem rangeInt_nodup : ∀ (len : ℕ) (n : Int), (rangeInt n len).Nodup := by
  intro len
  induction len with
  | zero => intro n; simp [rangeInt]
  | succ m ih =>
    intro n
    rw [rangeInt, List.nodup_cons]
    refine ⟨fun hm => ?_, ih (n + 1)⟩
    have := rangeInt_mem m (n + 1) n hm
    omega

theorem rangeInt_pairwise : ∀ (len : ℕ) (n : Int), (rangeInt n len).Pairwise (· ≤ ·) := by
  intro len
  induction len with
  | zero => intro n; simp [rangeInt]
  | succ m ih =>
    intro n
    rw [rangeInt, List.pairwise_cons]
    refine ⟨fun k hk => ?_, ih (n + 1)⟩
    have := rangeInt_mem m (n + 1) k hk
    omega

/-! ### Section locator lemmas -/

theorem locateLoop_append (xs : List String) :
    ∀ (ys : List String) (i : ℕ) (m : Option ℕ),
    locateLoop (xs ++ ys) i m =
      match locateLoop xs i m with
      | (m', none) => locateLoop ys (i + xs.length) m'
      | (m', some j) => (m', some j) := by
  induction xs with
  | nil => intro ys i m; simp [locateLoop]
  | cons l ls ih =>
    intro ys i m
    simp only [List.cons_append, locateLoop, List.append_eq]
    split
    · rw [ih ys (i + 1) (some i)]
      rcases locateLoop ls (i + 1) (some i) with ⟨m', _ | j⟩
      · simp [List.length_cons]
        congr 1
        omega
      · rfl
    · split
      · rfl
      · rw [ih ys (i + 1) m]
        rcases locateLoop ls (i + 1) m with ⟨m', _ | j⟩
        · simp [List.length_cons]
          congr 1
          omega
        · rfl

theorem locateLoop_neutral (xs : List String)
    (h : ∀ l ∈ xs, isMassesHeader l = false ∧ isAtomsHeader l = false) :
    ∀ (ys : List String) (i : ℕ) (m : Option ℕ),
    locateLoop (xs ++ ys) i m = locateLoop ys (i + xs.length) m := by
  induction xs with
  | nil => intro ys i m; simp
  | cons l ls ih =>
    intro ys i m
    obtain ⟨h1, h2⟩ := h l (List.mem_cons_self ..)
    simp only [List.cons_append, locateLoop, h1, Bool.false_eq_true, if_false, h2,
      List.append_eq]
    rw [ih (fun x hx => h x (List.mem_cons_of_mem l hx)) ys (i + 1) m]
    congr 1
    simp [List.length_cons]
    omega

theorem locateLoop_inv (xs : List String) :
    ∀ (i : ℕ) (m mo : Option ℕ) (j : ℕ), locateLoop xs i m = (mo, some j) →
    i ≤ j ∧ j - i < xs.length ∧ locateLoop (xs.take (j - i)) i m = (mo, none) ∧
    isAtomsHeader (xs.getD (j - i) "") = true ∧
    isMassesHeader (xs.getD (j - i) "") = false ∧
    (∀ k, k < j - i → isMassesHeader (xs.getD k "") = false →
      isAtomsHeader (xs.getD k "") = false) ∧
    (mo = m ∨ ∃ km, i ≤ km ∧ km < j ∧ mo = some km ∧
      isMassesHeader (xs.getD (km - i) "") = true) := by
  induction xs with
  | nil => intro i m mo j h; exact absurd h (by simp [locateLoop])
  | cons l ls ih =>
    intro i m mo j h
    rw [locateLoop] at h
    by_cases h1 : isMassesHeader l = true
    · rw [if_pos h1] at h
      obtain ⟨ha, hb, hc, hd, he, hf, hg⟩ := ih (i + 1) (some i) mo j h
      have hij : i < j := by omega
      have hsub : j - i = (j - (i + 1)) + 1 := by omega
      refine ⟨by omega, by simp [List.length_cons]; omega, ?_, ?_, ?_, ?_, ?_⟩
      · rw [hsub, List.take_succ_cons, locateLoop, if_pos h1]
        exact hc
      · rw [hsub]; simpa using hd
      · rw [hsub]; simpa using he
      · intro k hk hkm
        rw [hsub] at hk
        rcases k with _ | k'
        · simp only [List.getD_cons_zero] at hkm
          simp [h1] at hkm
        · simp only [List.getD_cons_succ] at hkm ⊢
          exact hf k' (by omega) hkm
      · rcases hg with rfl | ⟨km, hk1, hk2, hk3, hk4⟩
        · right
          exact ⟨i, le_refl i, hij, rfl, by simpa [Nat.sub_self] using h1⟩
        · right
          refine ⟨km, by omega, hk2, hk3, ?_⟩
          have : km - i = (km - (i + 1)) + 1 := by omega
          rw [this]
          simpa using hk4
    · rw [if_neg h1] at h
      rw [Bool.not_eq_true] at h1
      by_cases h2 : isAtomsHeader l = true
      · rw [if_pos h2] at h
        rcases Prod.mk.injEq .. ▸ h with ⟨rfl, hj⟩
        have hj2 : j = i := by
          have := Option.some.inj hj
          omega
        subst hj2
        refine ⟨le_refl _, by simp [Nat.sub_self, List.length_cons], ?_, ?_, ?_, ?_, Or.inl rfl⟩
        · simp [Nat.sub_self, locateLoop]
        · simpa [Nat.sub_self] using h2
        · simpa [Nat.sub_self] using h1
        · intro k hk
          omega
      · rw [if_neg h2] at h
        rw [Bool.not_eq_true] at h2
        obtain ⟨ha, hb, hc, hd, he, hf, hg⟩ := ih (i + 1) m mo j h
        have hij : i < j := by omega
        have hsub : j - i = (j - (i + 1)) + 1 := by omega
        refine ⟨by omega, by simp [List.length_cons]; omega, ?_, ?_, ?_, ?_, ?_⟩
        · rw [hsub, List.take_succ_cons, locateLoop, if_neg (by simp [h1]), if_neg (by simp [h2])]
          exact hc
        · rw [hsub]; simpa using hd
        · rw [hsub]; simpa using he
        · intro k hk hkm
          rw [hsub] at hk
          rcases k with _ | k'
          · simpa using h2
          · simp only [List.getD_cons_succ] at hkm ⊢
            exact hf k' (by omega) hkm
        · rcases hg with rfl | ⟨km, hk1, hk2, hk3, hk4⟩
          · exact Or.inl rfl
          · right
            refine ⟨km, by omega, hk2, hk3, ?_⟩
            have : km - i = (km - (i + 1)) + 1 := by omega
            rw [this]
            simpa using hk4

theorem locateLoop_none_acc (xs : List String) :
    ∀ (i : ℕ) (m mo : Option ℕ), locateLoop xs i m = (mo, none) →
    mo = m ∨ ∃ k, i ≤ k ∧ mo = some k := by
  induction xs with
  | nil =>
    intro i m mo h
    rw [locateLoop] at h
    rcases Prod.mk.injEq .. ▸ h with ⟨rfl, -⟩
    exact Or.inl rfl
  | cons l ls ih =>
    intro i m mo h
    rw [locateLoop] at h
    split at h
    · rcases ih (i + 1) (some i) mo h with rfl | ⟨k, hk1, hk2⟩
      · exact Or.inr ⟨i, le_refl i, rfl⟩
      · exact Or.inr ⟨k, by omega, hk2⟩
    · split at h
      · exact absurd h (by simp)
      · rcases ih (i + 1) m mo h with rfl | ⟨k, hk1, hk2⟩
        · exact Or.inl rfl
        · exact Or.inr ⟨k, by omega, hk2⟩

theorem isPre_cons_inv (c : Char) (cs x : List Char) (h : isPre (c :: cs) x = true) :
    ∃ t, x = c :: t := by
  rcases x with _ | ⟨d, ds⟩
  · exact absurd h (by simp [isPre])
  · simp only [isPre, Bool.and_eq_true] at h
    exact ⟨ds, by rw [← beq_iff_eq.1 h.1]⟩

theorem atoms_not_masses (l : String) (h : isAtomsHeader l = true) :
    isMassesHeader l = false := by
  unfold isAtomsHeader strStarts at h
  rcases isPre_cons_inv 'A' "toms".data (pyStrip l).data h with ⟨cs, hd⟩
  simp only [isMassesHeader, strStarts]
  have h1 : (pyStrip l == "Masses") = false := by
    rw [beq_eq_false_iff_ne]
    intro he
    rw [he] at hd
    simp at hd
  have h2 : isPre "Masses".data (pyStrip l).data = false := by
    rw [hd]
    simp [isPre]
  rw [h1, h2]
  rfl

/-! ### Masses-parse fold lemmas -/

theorem massStep_skip (d : List (Int × String)) (line : String)
    (h : parsedPair? line = none) : massStep d line = d := by
  unfold massStep
  unfold parsedPair? at h
  rcases hout : massLineOutcome line with _ | _ | _ | ⟨t, e⟩
  · rfl
  · rfl
  · rfl
  · rw [hout] at h
    exact absurd h (by simp)

theorem massStep_parsed (d : List (Int × String)) (line : String) (t : Int) (e : String)
    (h : massLineOutcome line = .parsed t e) : massStep d line = dictInsert d t e := by
  unfold massStep
  rw [h]

theorem foldl_massStep_keys_nodup (slice : List String) :
    ∀ d, ((d.map (fun p => p.1)).Nodup) →
    (((slice.foldl massStep d).map (fun p => p.1)).Nodup) := by
  induction slice with
  | nil => intro d h; exact h
  | cons l ls ih =>
    intro d h
    rw [List.foldl_cons]
    apply ih
    unfold massStep
    split
    · exact dictInsert_keys_nodup d _ _ h
    · exact h

theorem parseMassesDict_keys_nodup (slice : List String) :
    ((parseMassesDict slice).map (fun p => p.1)).Nodup :=
  foldl_massStep_keys_nodup slice [] (by simp)

theorem identify_element_mem (m : ℚ) (e : String) (h : identify_element m = some e) :
    e ∈ ELEMENT_DATA.map (fun p => p.1) := by
  unfold identify_element at h
  rcases Option.map_eq_some'.1 h with ⟨p, hp, rfl⟩
  exact List.mem_map.2 ⟨p, List.mem_of_find?_eq_some hp, rfl⟩

theorem massLineOutcome_eq (line : String) :
    massLineOutcome line =
      if (pyStrip line == "" || strStarts (pyStrip line) "#") = true then .skippedBlank
      else if (pySplitWs (beforeHash (pyStrip line))).length < 2 then .skippedShort
      else
        match pyInt? ((pySplitWs (beforeHash (pyStrip line))).getD 0 ""),
            pyFloat? ((pySplitWs (beforeHash (pyStrip line))).getD 1 "") with
        | some t, some m =>
          (match identify_element m with
           | some e => .parsed t e
           | none => .warned)
        | _, _ => .warned := rfl

theorem massLineOutcome_parsed_identify (line : String) (t : Int) (e : String)
    (h : massLineOutcome line = .parsed t e) : ∃ m, identify_element m = some e := by
  rw [massLineOutcome_eq] at h
  split at h
  · exact absurd h (by simp)
  · split at h
    · exact absurd h (by simp)
    · split at h
      · next t' m' h1 h2 =>
        split at h
        · next e' heq =>
          rcases (show t' = t ∧ e' = e by simpa using h) with ⟨-, rfl⟩
          exact ⟨m', heq⟩
        · exact absurd h (by simp)
      · exact absurd h (by simp)

theorem foldl_massStep_values (slice : List String) :
    ∀ d, (∀ p ∈ d, p.2 ∈ ELEMENT_DATA.map (fun q => q.1)) →
    ∀ p ∈ slice.foldl massStep d, p.2 ∈ ELEMENT_DATA.map (fun q => q.1) := by
  induction slice with
  | nil => intro d h; exact h
  | cons l ls ih =>
    intro d h
    rw [List.foldl_cons]
    apply ih
    unfold massStep
    split
    · next t e hout =>
      intro p hp
      rcases dictInsert_mem d t e p hp with hm | hv
      · exact h p hm
      · rw [hv]
        rcases massLineOutcome_parsed_identify l t e hout with ⟨m, hme⟩
        exact identify_element_mem m e hme
    · exact h

theorem parseMassesDict_values (slice : List String) :
    ∀ p ∈ parseMassesDict slice, p.2 ∈ ELEMENT_DATA.map (fun q => q.1) :=
  foldl_massStep_values slice [] (by simp)

theorem parseMassesDict_filter (slice : List String) :
    parseMassesDict slice =
      parseMassesDict (slice.filter (fun l => (parsedPair? l).isSome)) := by
  unfold parseMassesDict
  suffices h : ∀ d, slice.foldl massStep d =
      (slice.filter (fun l => (parsedPair? l).isSome)).foldl massStep d by
    exact h []
  induction slice with
  | nil => intro d; rfl
  | cons l ls ih =>
    intro d
    rw [List.foldl_cons, List.filter_cons]
    rcases hp : parsedPair? l with _ | pr
    · rw [massStep_skip d l hp]
      simp only [hp, Option.isSome_none, Bool.false_eq_true, if_false]
      exact ih d
    · simp only [hp, Option.isSome_some, if_true, List.foldl_cons]
      exact ih (massStep d l)

/-- The last element of a list, if any (used to state which Masses line wins
for a duplicated type id). -/
def lastOpt {α : Type} : List α → Option α
  | [] => none
  | [a] => some a
  | _ :: b :: l => lastOpt (b :: l)

theorem lastOpt_cons {α : Type} (a : α) (l : List α) :
    lastOpt (a :: l) = some ((lastOpt l).getD a) := by
  induction l generalizing a with
  | nil => rfl
  | cons b l ih =>
    show lastOpt (b :: l) = _
    rw [ih b]
    rfl

theorem dictGet?_foldl_massStep (slice : List String) :
    ∀ (d : List (Int × String)) (t : Int),
    dictGet? (slice.foldl massStep d) t =
      match lastOpt (((slice.filterMap parsedPair?).filter (fun p => p.1 == t))) with
      | some p => some p.2
      | none => dictGet? d t := by
  induction slice with
  | nil => intro d t; rfl
  | cons l ls ih =>
    intro d t
    rw [List.foldl_cons, List.filterMap_cons]
    rcases hp : parsedPair? l with _ | ⟨k, v⟩
    · rw [massStep_skip d l hp]
      exact ih d t
    · have hstep : massStep d l = dictInsert d k v := by
        unfold parsedPair? at hp
        split at hp
        · next t' e' hout =>
          have h2 := Option.some.inj hp
          have h3 : t' = k ∧ e' = v := by simpa using h2
          unfold massStep
          rw [hout, h3.1, h3.2]
        · exact absurd hp (by simp)
      rw [hstep, ih (dictInsert d k v) t, List.filter_cons]
      by_cases hkt : k = t
      · subst hkt
        simp only [beq_self_eq_true, if_true]
        rw [lastOpt_cons]
        rcases hlast : lastOpt (((ls.filterMap parsedPair?).filter (fun p => p.1 == k))) with
          _ | pr
        · rw [hlast]
          simp only [Option.getD_none]
          exact dictGet?_insert_self d k v
        · rw [hlast]
          simp only [Option.getD_some]
      · have hb : (((k, v) : Int × String).1 == t) = false := by simpa using hkt
        rw [hb]
        simp only [Bool.false_eq_true, if_false]
        rcases hlast : lastOpt (((ls.filterMap parsedPair?).filter (fun p => p.1 == t))) with
          _ | pr
        · rw [hlast]
          exact dictGet?_insert_ne d k t v (fun hh => hkt hh.symm)
        · rw [hlast]

/-! ### Facts about the element table, checked by evaluation -/

theorem symbol_facts : ∀ e ∈ ELEMENT_DATA.map (fun p => p.1),
    e.data ≠ [] ∧ (∀ c ∈ e.data, isSpace c = false ∧ c ≠ '#' ∧ c ≠ '\n') ∧
    pyFloat? (formatFixed8 (refMass e)) = some (refMass e) ∧
    identify_element (refMass e) = some e := by
  decide

/-! ### The generated Masses line parses back to its own (type, element) -/

theorem pyStripL_id (l : List Char) (c : Char) (cs : List Char) (hl : l = c :: cs)
    (hc : isSpace c = false) (d : Char) (ds : List Char) (hr : l.reverse = d :: ds)
    (hd : isSpace d = false) : pyStripL l = l := by
  unfold pyStripL stripEnd
  rw [hl, List.dropWhile_cons]
  simp only [hc, Bool.false_eq_true, if_false]
  rw [← hl, hr, List.dropWhile_cons]
  simp only [hd, Bool.false_eq_true, if_false]
  rw [← hr]
  simp

theorem massesLine_data (t : Int) (e : String) :
    (massesLine t e).data =
      "            ".data ++ (((intStr t).data ++ "   ".data ++
        (formatFixed8 (refMass e)).data ++ "             # ".data ++ e.data) ++ ['\n']) := by
  simp [massesLine, data_append]

theorem massesLine_strip (t : Int) (e : String) (ht : 1 ≤ t)
    (he : e ∈ ELEMENT_DATA.map (fun p => p.1)) :
    pyStripL (massesLine t e).data =
      (intStr t).data ++ "   ".data ++ (formatFixed8 (refMass e)).data ++
      "             # ".data ++ e.data := by
  obtain ⟨hne, hchars, -, -⟩ := symbol_facts e he
  rw [massesLine_data]
  rw [pyStripL_spaces_append _ _ (by decide)]
  rw [pyStripL_append_spaces _ ['\n'] (by decide)]
  obtain ⟨c, cs, hcs, hcd⟩ := intStr_nonneg_head t (by omega)
  obtain ⟨d, ds, hds⟩ := List.exists_cons_of_ne_nil
    (fun hh => hne (List.reverse_eq_nil_iff.1 hh) : e.data.reverse ≠ [])
  have hdmem : d ∈ e.data := List.mem_reverse.1 (hds ▸ List.mem_cons_self ..)
  apply pyStripL_id _ c (cs ++ "   ".data ++ (formatFixed8 (refMass e)).data ++
      "             # ".data ++ e.data) ?_ (isSpace_false_of_isDigit hcd) d
      (ds ++ ("             # ".data.reverse ++ ((formatFixed8 (refMass e)).data.reverse ++
        ("   ".data.reverse ++ (intStr t).data.reverse))))
      ?_ ((hchars d hdmem).1)
  · rw [hcs]
    simp
  · simp only [List.reverse_append]
    rw [hds]
    simp

theorem takeWhile_hash_stop (l : List Char) :
    (('#' :: l).takeWhile (fun c => c != '#')) = [] := by
  apply takeWhile_stop
  decide

theorem massesLine_beforeHash (t : Int) (e : String) (ht : 1 ≤ t)
    (he : e ∈ ELEMENT_DATA.map (fun p => p.1)) :
    (beforeHash (pyStrip (massesLine t e))).data =
      (intStr t).data ++ "   ".data ++ (formatFixed8 (refMass e)).data ++
        List.replicate 13 ' ' := by
  unfold beforeHash pyStrip
  rw [data_mk, data_mk, massesLine_strip t e ht he]
  have hsp : "             # ".data = List.replicate 13 ' ' ++ '#' :: [' '] := by decide
  rw [hsp]
  rw [show ((intStr t).data ++ "   ".data ++ (formatFixed8 (refMass e)).data ++
      (List.replicate 13 ' ' ++ '#' :: [' ']) ++ e.data : List Char) =
      (intStr t).data ++ ("   ".data ++ ((formatFixed8 (refMass e)).data ++
      (List.replicate 13 ' ' ++ ('#' :: ([' '] ++ e.data))))) by simp]
  rw [takeWhile_append_all _ _ _ (fun c hc => by
    have := intStr_no_hash t c hc
    simpa using this)]
  rw [takeWhile_append_all _ _ _ (by decide)]
  rw [takeWhile_append_all _ _ _ (fun c hc => by
    have := formatFixed8_no_hash (refMass e) c hc
    simpa using this)]
  rw [takeWhile_append_all _ _ _ (fun c hc => by
    rcases List.mem_replicate.1 hc with ⟨-, rfl⟩
    decide)]
  rw [takeWhile_hash_stop]
  simp

theorem massesLine_parts (t : Int) (e : String) (ht : 1 ≤ t)
    (he : e ∈ ELEMENT_DATA.map (fun p => p.1)) :
    pySplitWs (beforeHash (pyStrip (massesLine t e))) =
      [intStr t, formatFixed8 (refMass e)] := by
  unfold pySplitWs
  rw [massesLine_beforeHash t e ht he]
  have h1 : splitWsL ((intStr t).data ++ ("   ".data ++ ((formatFixed8 (refMass e)).data ++
      List.replicate 13 ' '))) =
      (intStr t).data :: splitWsL ("   ".data ++ ((formatFixed8 (refMass e)).data ++
        List.replicate 13 ' ')) := by
    apply splitWsL_token_cons _ _ (intStr_ne_nil t) (intStr_nonspace t)
    right
    have hh : ("   ".data ++ ((formatFixed8 (refMass e)).data ++
        List.replicate 13 ' ')).headD ' ' = ' ' := rfl
    rw [hh]
    decide
  have h2 : splitWsL ("   ".data ++ ((formatFixed8 (refMass e)).data ++
      List.replicate 13 ' ')) = splitWsL ((formatFixed8 (refMass e)).data ++
      List.replicate 13 ' ') := by
    unfold splitWsL
    exact splitWsAux_spaces "   ".data (by decide) _
  have h3 : splitWsL ((formatFixed8 (refMass e)).data ++ List.replicate 13 ' ') =
      (formatFixed8 (refMass e)).data :: splitWsL (List.replicate 13 ' ') := by
    apply splitWsL_token_cons _ _ ?_ (formatFixed8_nonspace (refMass e))
    · right
      show isSpace ((List.replicate 13 ' ').headD ' ') = true
      decide
    · intro hh
      have : '.' ∈ (formatFixed8 (refMass e)).data := by
        unfold formatFixed8
        rw [data_mk]
        exact List.mem_append.2 (Or.inr (List.mem_cons_self ..))
      rw [hh] at this
      simp at this
  have h4 : splitWsL (List.replicate 13 ' ') = [] := by decide
  rw [show ((intStr t).data ++ "   ".data ++ (formatFixed8 (refMass e)).data ++
      List.replicate 13 ' ' : List Char) = (intStr t).data ++ ("   ".data ++
      ((formatFixed8 (refMass e)).data ++ List.replicate 13 ' ')) by simp]
  rw [h1, h2, h3, h4]
  simp [mk_data]

theorem massesLine_strip_head (t : Int) (e : String) (ht : 1 ≤ t)
    (he : e ∈ ELEMENT_DATA.map (fun p => p.1)) :
    ∃ c cs, (pyStrip (massesLine t e)).data = c :: cs ∧ c.isDigit = true := by
  obtain ⟨c, cs, hcs, hcd⟩ := intStr_nonneg_head t (by omega)
  refine ⟨c, cs ++ "   ".data ++ (formatFixed8 (refMass e)).data ++
    "             # ".data ++ e.data, ?_, hcd⟩
  unfold pyStrip
  rw [data_mk, massesLine_strip t e ht he, hcs]
  simp

theorem massLineOutcome_massesLine (t : Int) (e : String) (ht : 1 ≤ t)
    (he : e ∈ ELEMENT_DATA.map (fun p => p.1)) :
    massLineOutcome (massesLine t e) = .parsed t e := by
  obtain ⟨c, cs, hcs, hcd⟩ := massesLine_strip_head t e ht he
  obtain ⟨-, -, hfloat, hident⟩ := symbol_facts e he
  rw [massLineOutcome_eq]
  rw [if_neg ?_]
  · rw [massesLine_parts t e ht he]
    rw [if_neg (by simp)]
    show (match pyInt? (intStr t), pyFloat? (formatFixed8 (refMass e)) with
      | some t', some m =>
        (match identify_element m with
         | some e' => MassOutcome.parsed t' e'
         | none => MassOutcome.warned)
      | _, _ => MassOutcome.warned) = MassOutcome.parsed t e
    rw [pyInt?_intStr t, hfloat]
    show (match identify_element (refMass e) with
      | some e' => MassOutcome.parsed t e'
      | none => MassOutcome.warned) = MassOutcome.parsed t e
    rw [hident]
  · intro hcond
    rcases Bool.or_eq_true .. ▸ hcond with h1 | h2
    · have : (pyStrip (massesLine t e)).data = [] := by
        have h3 := beq_iff_eq.1 h1
        rw [h3]
      rw [hcs] at this
      exact absurd this (by simp)
    · unfold strStarts at h2
      rcases isPre_cons_inv '#' [] _ h2 with ⟨tt, htt⟩
      rw [hcs] at htt
      have hceq : c = '#' := by
        have := List.cons.injEq .. ▸ htt
        exact this.1
      rw [hceq] at hcd
      exact absurd hcd (by decide)

theorem massesLine_not_atoms (t : Int) (e : String) (ht : 1 ≤ t)
    (he : e ∈ ELEMENT_DATA.map (fun p => p.1)) :
    isAtomsHeader (massesLine t e) = false := by
  obtain ⟨c, cs, hcs, hcd⟩ := massesLine_strip_head t e ht he
  unfold isAtomsHeader strStarts
  rw [hcs]
  rw [Bool.eq_false_iff]
  intro h
  rcases isPre_cons_inv 'A' _ _ h with ⟨tt, htt⟩
  have hceq : c = 'A' := (List.cons.injEq .. ▸ htt).1
  rw [hceq] at hcd
  exact absurd hcd (by decide)

theorem massesLine_not_masses (t : Int) (e : String) (ht : 1 ≤ t)
    (he : e ∈ ELEMENT_DATA.map (fun p => p.1)) :
    isMassesHeader (massesLine t e) = false := by
  obtain ⟨c, cs, hcs, hcd⟩ := massesLine_strip_head t e ht he
  simp only [isMassesHeader, strStarts]
  have h1 : (pyStrip (massesLine t e) == "Masses") = false := by
    rw [beq_eq_false_iff_ne]
    intro hh
    rw [hh] at hcs
    have hceq : c = 'M' := ((List.cons.injEq .. ▸ hcs.symm).1 : c = 'M')
    rw [hceq] at hcd
    exact absurd hcd (by decide)
  have h2 : isPre "Masses".data (pyStrip (massesLine t e)).data = false := by
    rw [hcs, Bool.eq_false_iff]
    intro h
    rcases isPre_cons_inv 'M' _ _ h with ⟨tt, htt⟩
    have hceq : c = 'M' := (List.cons.injEq .. ▸ htt).1
    rw [hceq] at hcd
    exact absurd hcd (by decide)
  rw [h1, h2]
  rfl

theorem pyStripL_ne_nil_of_mem (l : List Char) (c : Char) (hc : c ∈ l)
    (hcs : isSpace c = false) : pyStripL l ≠ [] := by
  intro h
  rw [pyStripL_eq_nil_iff] at h
  rw [h c hc] at hcs
  exact absurd hcs (by simp)

theorem massesLine_strip_ne (t : Int) (e : String) : pyStrip (massesLine t e) ≠ "" := by
  have h9 : '#' ∈ (massesLine t e).data := by
    rw [massesLine_data]
    refine List.mem_append.2 (Or.inr (List.mem_append.2 (Or.inl ?_)))
    refine List.mem_append.2 (Or.inl ?_)
    refine List.mem_append.2 (Or.inr ?_)
    decide
  intro h
  have h10 : pyStripL (massesLine t e).data = [] := congrArg String.data h
  exact pyStripL_ne_nil_of_mem _ '#' h9 (by decide) h10

/-! ### The rewritten Masses block -/

theorem map_lookup_eq {α γ : Type} (d : List (Int × α)) (f : Int → α → γ) (dflt : α)
    (hn : ((d.map (fun p => p.1)).Nodup)) :
    (d.map (fun p => p.1)).map (fun k => f k ((dictGet? d k).getD dflt)) =
      d.map (fun p => f p.1 p.2) := by
  induction d with
  | nil => rfl
  | cons p rest ih =>
    rcases p with ⟨k₀, v₀⟩
    simp only [List.map_cons] at hn ⊢
    rw [List.nodup_cons] at hn
    have hhead : dictGet? ((k₀, v₀) :: rest) k₀ = some v₀ := by
      rw [dictGet?_cons, if_pos rfl]
    rw [hhead]
    simp only [Option.getD_some]
    have htail : (rest.map (fun p => p.1)).map
        (fun k => f k ((dictGet? ((k₀, v₀) :: rest) k).getD dflt)) =
        (rest.map (fun p => p.1)).map (fun k => f k ((dictGet? rest k).getD dflt)) := by
      apply List.map_congr_left
      intro k hk
      have hne : k₀ ≠ k := fun hh => hn.1 (hh ▸ hk)
      rw [dictGet?_cons, if_neg hne]
    rw [htail, ih hn.2]

theorem massesBlock_neSpec (l : List (Int × String)) :
    massesBlock (neSpec 1 l) = (neSpec 1 l).map (fun p => massesLine p.1 p.2) := by
  unfold massesBlock
  have hkeys : (neSpec 1 l).map (fun p => p.1) = rangeInt 1 l.length := neSpec_fst l 1
  have hsort : sortInts ((neSpec 1 l).map (fun p => p.1)) =
      (neSpec 1 l).map (fun p => p.1) := by
    unfold sortInts
    apply sortKey_eq_of_pairwise
    rw [hkeys]
    have := rangeInt_pairwise ((neSpec 1 l).length) 1
    rw [neSpec_length] at this
    exact this
  rw [hsort]
  apply map_lookup_eq
  rw [hkeys]
  exact rangeInt_nodup l.length 1

/-! ### The reformatted atom record: its token content -/

theorem splitWs_extra (ts : List String)
    (hts : ∀ t ∈ ts, t.data ≠ [] ∧ ∀ c ∈ t.data, isSpace c = false) :
    splitWsL ((extraCols ts).data ++ ['\n']) = ts.map (fun t => t.data) := by
  induction ts with
  | nil => rfl
  | cons t rest ih =>
    show splitWsL (("       " ++ t ++ extraCols rest).data ++ ['\n']) = _
    rw [show ("       " ++ t ++ extraCols rest).data ++ ['\n'] =
      "       ".data ++ (t.data ++ ((extraCols rest).data ++ ['\n'])) by
        simp [data_append]]
    unfold splitWsL
    rw [splitWsAux_spaces "       ".data (by decide) _]
    have hstep := splitWsL_token_cons t.data ((extraCols rest).data ++ ['\n'])
      (hts t (List.mem_cons_self ..)).1 (hts t (List.mem_cons_self ..)).2 ?_
    · unfold splitWsL at hstep
      rw [hstep]
      have ih2 := ih (fun x hx => hts x (List.mem_cons_of_mem t hx))
      unfold splitWsL at ih2
      rw [ih2]
      rfl
    · right
      rcases rest with _ | ⟨u, us⟩
      · show isSpace ((("" : String).data ++ ['\n']).headD ' ') = true
        decide
      · show isSpace (((extraCols (u :: us)).data ++ ['\n']).headD ' ') = true
        show isSpace ((("       " ++ u ++ extraCols us).data ++ ['\n']).headD ' ') = true
        have hh : (("       " ++ u ++ extraCols us).data ++ ['\n']).headD ' ' = ' ' := rfl
        rw [hh]
        decide

theorem processAtomLine_eq (tm : List (Int × Int)) (line : String) :
    processAtomLine tm line =
      if (pyStrip line == "" || strStarts (pyStrip line) "#") = true then .dropped
      else if (pySplitWs line).length < 4 then .dropped
      else
        match pyInt? ((pySplitWs line).getD 0 ""), pyInt? ((pySplitWs line).getD 1 "") with
        | some atom_id, some old_type =>
          (match dictGet? tm old_type with
           | some new_type =>
             if (pySplitWs line).length < 5 then .dropped
             else .remapped (formatAtomLine atom_id new_type ((pySplitWs line).drop 2))
           | none => .passthrough line)
        | _, _ => .dropped := rfl

theorem formatAtomLine_data (a nt : Int) (c0 c1 c2 : String) (rest : List String) :
    (formatAtomLine a nt (c0 :: c1 :: c2 :: rest)).data =
      ("      ".data ++ List.replicate (6 - (intStr a).data.length) ' ') ++
      ((intStr a).data ++ ("    ".data ++ ((intStr nt).data ++
      (("        ".data ++ List.replicate (20 - c0.data.length) ' ') ++
      (c0.data ++ (("       ".data ++ List.replicate (20 - c1.data.length) ' ') ++
      (c1.data ++ (("       ".data ++ List.replicate (20 - c2.data.length) ' ') ++
      (c2.data ++ ((extraCols rest).data ++ ['\n'])))))))))) := by
  show ("      " ++ padLeft (intStr a) 6 ++ "    " ++ intStr nt ++ "        " ++
      padLeft ((c0 :: c1 :: c2 :: rest).getD 0 "") 20 ++ "       " ++
      padLeft ((c0 :: c1 :: c2 :: rest).getD 1 "") 20 ++ "       " ++
      padLeft ((c0 :: c1 :: c2 :: rest).getD 2 "") 20 ++
      extraCols ((c0 :: c1 :: c2 :: rest).drop 3) ++ "\n").data = _
  simp only [List.getD_cons_zero, List.getD_cons_succ, List.drop_succ_cons, List.drop_zero]
  simp [data_append, padLeft, data_mk]

theorem splitWsL_chunk (sp tok tail : List Char) (hsp : ∀ c ∈ sp, isSpace c = true)
    (htok : tok ≠ []) (hns : ∀ c ∈ tok, isSpace c = false)
    (htail : tail = [] ∨ isSpace (tail.headD ' ') = true) :
    splitWsL (sp ++ (tok ++ tail)) = tok :: splitWsL tail := by
  unfold splitWsL
  rw [splitWsAux_spaces sp hsp]
  have h := splitWsL_token_cons tok tail htok hns htail
  unfold splitWsL at h
  exact h

theorem formatAtomLine_split (a nt : Int) (c0 c1 c2 : String) (rest : List String)
    (h0 : c0.data ≠ [] ∧ ∀ ch ∈ c0.data, isSpace ch = false)
    (h1 : c1.data ≠ [] ∧ ∀ ch ∈ c1.data, isSpace ch = false)
    (h2 : c2.data ≠ [] ∧ ∀ ch ∈ c2.data, isSpace ch = false)
    (hr : ∀ t ∈ rest, t.data ≠ [] ∧ ∀ ch ∈ t.data, isSpace ch = false) :
    pySplitWs (formatAtomLine a nt (c0 :: c1 :: c2 :: rest)) =
      intStr a :: intStr nt :: c0 :: c1 :: c2 :: rest := by
  have hsp : ∀ (k : ℕ) (pre : List Char), (∀ ch ∈ pre, isSpace ch = true) →
      ∀ ch ∈ pre ++ List.replicate k ' ', isSpace ch = true := by
    intro k pre hpre ch hch
    rcases List.mem_append.1 hch with hc | hc
    · exact hpre ch hc
    · rcases List.mem_replicate.1 hc with ⟨-, rfl⟩
      decide
  unfold pySplitWs
  rw [formatAtomLine_data]
  set x5 : List Char := (extraCols rest).data ++ ['\n'] with hx5
  set x4 : List Char := ("       ".data ++ List.replicate (20 - c2.data.length) ' ') ++
    (c2.data ++ x5) with hx4
  set x3 : List Char := ("       ".data ++ List.replicate (20 - c1.data.length) ' ') ++
    (c1.data ++ x4) with hx3
  set x2 : List Char := ("        ".data ++ List.replicate (20 - c0.data.length) ' ') ++
    (c0.data ++ x3) with hx2
  set x1 : List Char := "    ".data ++ ((intStr nt).data ++ x2) with hx1
  have hx1h : isSpace (x1.headD ' ') = true := by
    rw [hx1]
    rw [show ("    ".data ++ ((intStr nt).data ++ x2)).headD ' ' = ' ' from rfl]
    decide
  have hx2h : isSpace (x2.headD ' ') = true := by
    rw [hx2]
    rw [show ((("        ".data ++ List.replicate (20 - c0.data.length) ' ') ++
      (c0.data ++ x3)).headD ' ') = ' ' from rfl]
    decide
  have hx3h : isSpace (x3.headD ' ') = true := by
    rw [hx3]
    rw [show ((("       ".data ++ List.replicate (20 - c1.data.length) ' ') ++
      (c1.data ++ x4)).headD ' ') = ' ' from rfl]
    decide
  have hx4h : isSpace (x4.headD ' ') = true := by
    rw [hx4]
    rw [show ((("       ".data ++ List.replicate (20 - c2.data.length) ' ') ++
      (c2.data ++ x5)).headD ' ') = ' ' from rfl]
    decide
  have hx5h : x5 = [] ∨ isSpace (x5.headD ' ') = true := by
    right
    rw [hx5]
    rcases rest with _ | ⟨u, us⟩
    · decide
    · rw [show ((extraCols (u :: us)).data ++ ['\n']).headD ' ' = ' ' from rfl]
      decide
  rw [splitWsL_chunk ("      ".data ++ List.replicate (6 - (intStr a).data.length) ' ')
    (intStr a).data x1 (hsp _ _ (by decide)) (intStr_ne_nil a) (intStr_nonspace a)
    (Or.inr hx1h)]
  rw [hx1, splitWsL_chunk "    ".data (intStr nt).data x2 (by decide)
    (intStr_ne_nil nt) (intStr_nonspace nt) (Or.inr hx2h)]
  rw [hx2, splitWsL_chunk ("        ".data ++ List.replicate (20 - c0.data.length) ' ')
    c0.data x3 (hsp _ _ (by decide)) h0.1 h0.2 (Or.inr hx3h)]
  rw [hx3, splitWsL_chunk ("       ".data ++ List.replicate (20 - c1.data.length) ' ')
    c1.data x4 (hsp _ _ (by decide)) h1.1 h1.2 (Or.inr hx4h)]
  rw [hx4, splitWsL_chunk ("       ".data ++ List.replicate (20 - c2.data.length) ' ')
    c2.data x5 (hsp _ _ (by decide)) h2.1 h2.2 hx5h]
  rw [hx5]
  have sx := splitWs_extra rest hr
  unfold splitWsL at sx
  unfold splitWsL
  rw [sx]
  simp only [List.map_cons, mk_data]
  have hmm : List.map String.mk (rest.map (fun t => t.data)) = rest := by
    rw [List.map_map]
    have hpt : ∀ t ∈ rest, (String.mk ∘ fun t : String => t.data) t = t := fun t _ => rfl
    rw [List.map_congr_left hpt, List.map_id']
  rw [hmm]

/-! ### Well-formed lines (for the readlines/join roundtrip) -/

theorem wf_newline : wfLine "\n" := ⟨[], rfl, by simp⟩

theorem massesLine_wf (t : Int) (e : String) (he : e ∈ ELEMENT_DATA.map (fun p => p.1)) :
    wfLine (massesLine t e) := by
  obtain ⟨-, hchars, -, -⟩ := symbol_facts e he
  have hA : '\n' ∉ "            ".data := by decide
  have hB : '\n' ∉ (intStr t).data := fun hm => intStr_no_newline t '\n' hm rfl
  have hC : '\n' ∉ "   ".data := by decide
  have hD : '\n' ∉ (formatFixed8 (refMass e)).data := by
    intro hm
    rcases formatFixed8_chars _ '\n' hm with hd | hd
    · exact absurd hd (by decide)
    · exact absurd hd (by decide)
  have hE : '\n' ∉ "             # ".data := by decide
  have hF : '\n' ∉ e.data := fun hm => (hchars '\n' hm).2.2 rfl
  refine ⟨"            ".data ++ ((intStr t).data ++ "   ".data ++
    (formatFixed8 (refMass e)).data ++ "             # ".data ++ e.data), ?_, ?_⟩
  · rw [massesLine_data]
    simp
  · intro hmem
    rcases List.mem_append.1 hmem with hm | hm
    · exact hA hm
    · rcases List.mem_append.1 hm with hm | hm
      · rcases List.mem_append.1 hm with hm | hm
        · rcases List.mem_append.1 hm with hm | hm
          · rcases List.mem_append.1 hm with hm | hm
            · exact hB hm
            · exact hC hm
          · exact hD hm
        · exact hE hm
      · exact hF hm

theorem extraCols_no_newline (ts : List String)
    (hts : ∀ s ∈ ts, ∀ ch ∈ s.data, isSpace ch = false) :
    '\n' ∉ (extraCols ts).data := by
  induction ts with
  | nil => simp [extraCols]
  | cons t rest ih =>
    intro hch
    have hdata : (extraCols (t :: rest)).data =
        ("       ".data ++ t.data) ++ (extraCols rest).data := by
      show ("       " ++ t ++ extraCols rest).data = _
      simp [data_append]
    rw [hdata] at hch
    rcases List.mem_append.1 hch with hm | hm
    · rcases List.mem_append.1 hm with hm2 | hm2
      · exact absurd hm2 (by decide)
      · have := hts t (List.mem_cons_self ..) '\n' hm2
        exact absurd this (by simp [isSpace])
    · exact ih (fun s hs => hts s (List.mem_cons_of_mem t hs)) hm

theorem padLeft_no_newline (s : String) (w : ℕ) (hs : '\n' ∉ s.data) :
    '\n' ∉ (padLeft s w).data := by
  intro hm
  unfold padLeft at hm
  rw [data_mk] at hm
  rcases List.mem_append.1 hm with hm2 | hm2
  · rcases List.mem_replicate.1 hm2 with ⟨-, hh⟩
    exact absurd hh (by decide)
  · exact hs hm2

theorem formatAtomLine_wf (a nt : Int) (coords : List String)
    (hc : ∀ s ∈ coords, ∀ ch ∈ s.data, isSpace ch = false) :
    wfLine (formatAtomLine a nt coords) := by
  have hget : ∀ i : ℕ, '\n' ∉ (coords.getD i "").data := by
    intro i hch
    by_cases hi : i < coords.length
    · rw [List.getD_eq_getElem coords "" hi] at hch
      have := hc coords[i] (List.getElem_mem hi) '\n' hch
      exact absurd this (by simp [isSpace])
    · rw [List.getD_eq_default coords "" (by omega)] at hch
      exact absurd hch (by simp)
  have hB : '\n' ∉ (intStr a).data := fun hm => intStr_no_newline a '\n' hm rfl
  have hD : '\n' ∉ (intStr nt).data := fun hm => intStr_no_newline nt '\n' hm rfl
  have hX : '\n' ∉ (extraCols (coords.drop 3)).data :=
    extraCols_no_newline (coords.drop 3) (fun s hs => hc s (List.mem_of_mem_drop hs))
  refine ⟨("      " ++ padLeft (intStr a) 6 ++ "    " ++ intStr nt ++ "        " ++
    padLeft (coords.getD 0 "") 20 ++ "       " ++ padLeft (coords.getD 1 "") 20 ++ "       " ++
    padLeft (coords.getD 2 "") 20 ++ extraCols (coords.drop 3)).data, ?_, ?_⟩
  · show (formatAtomLine a nt coords).data = _
    unfold formatAtomLine
    simp [data_append]
  · intro hmem
    simp only [data_append] at hmem
    rcases List.mem_append.1 hmem with hm | hm
    case inr => exact hX hm
    rcases List.mem_append.1 hm with hm | hm
    case inr => exact padLeft_no_newline _ 20 (hget 2) hm
    rcases List.mem_append.1 hm with hm | hm
    case inr => exact absurd hm (by decide)
    rcases List.mem_append.1 hm with hm | hm
    case inr => exact padLeft_no_newline _ 20 (hget 1) hm
    rcases List.mem_append.1 hm with hm | hm
    case inr => exact absurd hm (by decide)
    rcases List.mem_append.1 hm with hm | hm
    case inr => exact padLeft_no_newline _ 20 (hget 0) hm
    rcases List.mem_append.1 hm with hm | hm
    case inr => exact absurd hm (by decide)
    rcases List.mem_append.1 hm with hm | hm
    case inr => exact hD hm
    rcases List.mem_append.1 hm with hm | hm
    case inr => exact absurd hm (by decide)
    rcases List.mem_append.1 hm with hm | hm
    case inr => exact padLeft_no_newline _ 6 hB hm
    case inl => exact absurd hm (by decide)

theorem readLinesAux_line (t : List Char) (hnl : '\n' ∉ t) :
    ∀ (rest acc : List Char), readLinesAux (t ++ '\n' :: rest) acc =
      String.mk (acc.reverse ++ (t ++ ['\n'])) :: readLinesAux rest [] := by
  induction t with
  | nil =>
    intro rest acc
    show readLinesAux ('\n' :: rest) acc = _
    simp [readLinesAux]
  | cons c cs ih =>
    intro rest acc
    have hc : c ≠ '\n' := fun hh => hnl (hh ▸ List.mem_cons_self ..)
    show readLinesAux (c :: (cs ++ '\n' :: rest)) acc = _
    simp only [readLinesAux, hc, if_false]
    rw [ih (fun hh => hnl (List.mem_cons_of_mem c hh)) rest (c :: acc)]
    simp

theorem pyReadLines_join (chunks : List String) (h : ∀ c ∈ chunks, wfLine c) :
    pyReadLines (joinAll chunks) = chunks := by
  induction chunks with
  | nil => rfl
  | cons c cs ih =>
    obtain ⟨t, ht, hnl⟩ := h c (List.mem_cons_self ..)
    show readLinesAux ((List.map (fun s => s.data) (c :: cs)).flatten) [] = c :: cs
    simp only [List.map_cons, List.flatten_cons]
    rw [ht, show (t ++ ['\n']) ++ (List.map (fun s => s.data) cs).flatten =
      t ++ '\n' :: (List.map (fun s => s.data) cs).flatten by simp]
    rw [readLinesAux_line t hnl _ []]
    simp only [List.reverse_nil, List.nil_append]
    rw [← ht, mk_data]
    have ih2 := ih (fun x hx => h x (List.mem_cons_of_mem c hx))
    show c :: readLinesAux ((List.map (fun s => s.data) cs).flatten) [] = c :: cs
    rw [show readLinesAux ((List.map (fun s => s.data) cs).flatten) [] =
      pyReadLines (joinAll cs) from rfl, ih2]

/-! ### Run-level lemmas -/

theorem fix_eq (lines : List String) (ms as : ℕ)
    (h : locateSections lines = (some ms, some as))
    (hd : parseMassesDict (massesSlice lines ms as) ≠ []) :
    fix_lammps_types lines = some (lines.take (ms + 1) ++ "\n" ::
      (massesBlock (new_type_to_element (sortByZ (parseMassesDict (massesSlice lines ms as)))) ++
       "\n" :: lines.getD as "" :: "\n" ::
       atomChunks (type_mapping (sortByZ (parseMassesDict (massesSlice lines ms as))))
         (lines.drop (as + 1)))) := by
  unfold fix_lammps_types
  rw [h]
  have hemp : (parseMassesDict (massesSlice lines ms as)).isEmpty = false := by
    simp [List.isEmpty_iff, hd]
  simp only [hemp, Bool.false_eq_true, if_false]

theorem fix_some_inv (lines chunks : List String)
    (h : fix_lammps_types lines = some chunks) :
    ∃ ms as, locateSections lines = (some ms, some as) ∧
      parseMassesDict (massesSlice lines ms as) ≠ [] ∧
      chunks = lines.take (ms + 1) ++ "\n" ::
        (massesBlock (new_type_to_element (sortByZ (parseMassesDict (massesSlice lines ms as)))) ++
         "\n" :: lines.getD as "" :: "\n" ::
         atomChunks (type_mapping (sortByZ (parseMassesDict (massesSlice lines ms as))))
           (lines.drop (as + 1))) := by
  unfold fix_lammps_types at h
  rcases hl : locateSections lines with ⟨m1, m2⟩
  rw [hl] at h
  rcases m1 with _ | ms
  · rcases m2 with _ | as <;> exact absurd h (by simp)
  · rcases m2 with _ | as
    · exact absurd h (by simp)
    · have h2 : (if (parseMassesDict (massesSlice lines ms as)).isEmpty = true
          then (none : Option (List String))
          else some (lines.take (ms + 1) ++ "\n" ::
            (massesBlock (new_type_to_element (sortByZ (parseMassesDict
              (massesSlice lines ms as)))) ++
             "\n" :: lines.getD as "" :: "\n" ::
             atomChunks (type_mapping (sortByZ (parseMassesDict (massesSlice lines ms as))))
               (lines.drop (as + 1))))) = some chunks := h
      by_cases hd : (parseMassesDict (massesSlice lines ms as)).isEmpty = true
      · rw [if_pos hd] at h2
        exact absurd h2 (by simp)
      · rw [if_neg hd] at h2
        refine ⟨ms, as, rfl, ?_, (Option.some.inj h2).symm⟩
        intro hnil
        exact hd (by simp [hnil])

theorem sortByZ_keys_nodup (d : List (Int × String))
    (h : (d.map (fun p => p.1)).Nodup) : ((sortByZ d).map (fun p => p.1)).Nodup := by
  have hperm : List.Perm ((sortByZ d).map (fun p => p.1)) (d.map (fun p => p.1)) :=
    (sortKey_perm zOfPair d).map (fun p => p.1)
  exact hperm.nodup_iff.2 h

theorem neSpec_mem_snd (l : List (Int × String)) :
    ∀ n q, q ∈ neSpec n l → ∃ p ∈ l, q.2 = p.2 := by
  induction l with
  | nil => intro n q hq; exact absurd hq (by simp [neSpec])
  | cons p rest ih =>
    intro n q hq
    rcases List.mem_cons.1 hq with rfl | hm
    · exact ⟨p, List.mem_cons_self .., rfl⟩
    · rcases ih (n + 1) q hm with ⟨p', hp', hq'⟩
      exact ⟨p', List.mem_cons_of_mem p hp', hq'⟩

theorem neSpec_pairwise (l : List (Int × String))
    (h : l.Pairwise (fun p q => zOfPair p ≤ zOfPair q)) :
    ∀ n, (neSpec n l).Pairwise (fun p q => zOfPair p ≤ zOfPair q) := by
  induction l with
  | nil => intro n; simp [neSpec]
  | cons p rest ih =>
    intro n
    rw [List.pairwise_cons] at h
    show List.Pairwise _ ((n, p.2) :: neSpec (n + 1) rest)
    rw [List.pairwise_cons]
    constructor
    · intro q hq
      rcases neSpec_mem_snd rest (n + 1) q hq with ⟨p', hp', hq'⟩
      show zOfPair (n, p.2) ≤ zOfPair q
      unfold zOfPair at h ⊢
      rw [hq']
      exact h.1 p' hp'
    · exact ih h.2 (n + 1)

theorem neSpec_mem_parts (l : List (Int × String)) :
    ∀ p ∈ neSpec 1 l, p.1 ∈ rangeInt 1 l.length ∧ p.2 ∈ l.map (fun q => q.2) := by
  intro p hp
  constructor
  · have h1 : p.1 ∈ (neSpec 1 l).map (fun q => q.1) := List.mem_map_of_mem _ hp
    rw [neSpec_fst] at h1
    exact h1
  · have h2 : p.2 ∈ (neSpec 1 l).map (fun q => q.2) := List.mem_map_of_mem _ hp
    rw [neSpec_snd] at h2
    exact h2

theorem run_values_symbols (lines : List String) (ms as : ℕ) :
    ∀ p ∈ sortByZ (parseMassesDict (massesSlice lines ms as)),
      p.2 ∈ ELEMENT_DATA.map (fun q => q.1) := by
  intro p hp
  have hm : p ∈ parseMassesDict (massesSlice lines ms as) :=
    (sortKey_perm zOfPair _).mem_iff.1 hp
  exact parseMassesDict_values _ p hm

theorem atomChunks_mem (tm : List (Int × Int)) (ls : List String) :
    ∀ c ∈ atomChunks tm ls, ∃ l ∈ ls,
      processAtomLine tm l = .passthrough c ∨ processAtomLine tm l = .remapped c := by
  induction ls with
  | nil => intro c hc; exact absurd hc (by simp [atomChunks])
  | cons l ls ih =>
    intro c hc
    show ∃ l' ∈ l :: ls, _
    have hc2 : c ∈ (match processAtomLine tm l with
        | .dropped => atomChunks tm ls
        | .passthrough s => s :: atomChunks tm ls
        | .remapped s => s :: atomChunks tm ls) := hc
    rcases hp : processAtomLine tm l with _ | s | s
    · rw [hp] at hc2
      rcases ih c hc2 with ⟨l', hl', hpl⟩
      exact ⟨l', List.mem_cons_of_mem l hl', hpl⟩
    · rw [hp] at hc2
      rcases List.mem_cons.1 hc2 with rfl | hm
      · exact ⟨l, List.mem_cons_self .., Or.inl hp⟩
      · rcases ih c hm with ⟨l', hl', hpl⟩
        exact ⟨l', List.mem_cons_of_mem l hl', hpl⟩
    · rw [hp] at hc2
      rcases List.mem_cons.1 hc2 with rfl | hm
      · exact ⟨l, List.mem_cons_self .., Or.inr hp⟩
      · rcases ih c hm with ⟨l', hl', hpl⟩
        exact ⟨l', List.mem_cons_of_mem l hl', hpl⟩

theorem processAtomLine_passthrough_inv (tm : List (Int × Int)) (l s : String)
    (h : processAtomLine tm l = .passthrough s) : s = l := by
  rw [processAtomLine_eq] at h
  split at h
  · exact absurd h (by simp)
  · split at h
    · exact absurd h (by simp)
    · split at h
      · split at h
        · split at h
          · exact absurd h (by simp)
          · exact absurd h (by simp)
        · exact (AtomOut.passthrough.injEq .. ▸ h).symm
      · exact absurd h (by simp)

theorem processAtomLine_remapped_inv (tm : List (Int × Int)) (l s : String)
    (h : processAtomLine tm l = .remapped s) :
    ∃ a nt, s = formatAtomLine a nt ((pySplitWs l).drop 2) := by
  rw [processAtomLine_eq] at h
  split at h
  · exact absurd h (by simp)
  · split at h
    · exact absurd h (by simp)
    · split at h
      · next a t h1 h2 =>
        split at h
        · next nt hnt =>
          split at h
          · exact absurd h (by simp)
          · have hs : formatAtomLine a nt ((pySplitWs l).drop 2) = s := by simpa using h
            exact ⟨a, nt, hs.symm⟩
        · exact absurd h (by simp)
      · exact absurd h (by simp)

theorem fix_chunks_wf (lines chunks : List String)
    (hwf : ∀ l ∈ lines, wfLine l)
    (hfix : fix_lammps_types lines = some chunks) :
    ∀ c ∈ chunks, wfLine c := by
  obtain ⟨ms, as, hloc, hne, hchunks⟩ := fix_some_inv lines chunks hfix
  subst hchunks
  intro c hc
  rcases List.mem_append.1 hc with hm | hm
  · exact hwf c (List.take_subset (ms + 1) lines hm)
  rcases List.mem_cons.1 hm with rfl | hm
  · exact wf_newline
  rcases List.mem_append.1 hm with hm | hm
  · rw [new_type_to_element_eq, massesBlock_neSpec] at hm
    rcases List.mem_map.1 hm with ⟨p, hp, rfl⟩
    rcases neSpec_mem_snd _ 1 p hp with ⟨q, hq, hq2⟩
    refine massesLine_wf p.1 p.2 ?_
    rw [hq2]
    exact parseMassesDict_values _ q ((sortKey_perm zOfPair _).mem_iff.1 hq)
  rcases List.mem_cons.1 hm with rfl | hm
  · exact wf_newline
  rcases List.mem_cons.1 hm with rfl | hm
  · have hinv := locateLoop_inv lines 0 none (some ms) as hloc
    have has : as < lines.length := by
      have := hinv.2.1
      omega
    rw [List.getD_eq_getElem lines "" has]
    exact hwf _ (List.getElem_mem has)
  rcases List.mem_cons.1 hm with rfl | hm
  · exact wf_newline
  · rcases atomChunks_mem _ _ c hm with ⟨l, hl, hpl | hpl⟩
    · rw [processAtomLine_passthrough_inv _ _ _ hpl]
      exact hwf l (List.drop_subset (as + 1) lines hl)
    · rcases processAtomLine_remapped_inv _ _ _ hpl with ⟨a, nt, rfl⟩
      apply formatAtomLine_wf
      intro s hs ch hch
      exact ((pySplitWs_tokens l) s (List.drop_subset 2 _ hs)).2 ch hch

theorem prefix_scan (lines : List String) (ms as : ℕ)
    (h : locateSections lines = (some ms, some as)) :
    locateLoop (lines.take (ms + 1)) 0 none = (some ms, none) ∧ ms < as ∧
    as < lines.length ∧ isAtomsHeader (lines.getD as "") = true := by
  have hinv := locateLoop_inv lines 0 none (some ms) as h
  obtain ⟨-, hlen, htake, hatoms, -, -, hdisj⟩ := hinv
  simp only [Nat.sub_zero] at hlen htake hatoms
  have hms : ms < as := by
    rcases hdisj with hh | ⟨km, -, hk2, hk3, -⟩
    · exact absurd hh (by simp)
    · have hkm := Option.some.inj hk3
      omega
  refine ⟨?_, hms, hlen, hatoms⟩
  have hsplit : lines.take as = lines.take (ms + 1) ++ massesSlice lines ms as := by
    unfold massesSlice
    nth_rewrite 1 [show as = (ms + 1) + (as - (ms + 1)) by omega]
    rw [List.take_add]
  rw [hsplit, locateLoop_append] at htake
  rcases hpre : locateLoop (lines.take (ms + 1)) 0 none with ⟨m1, r1⟩
  rw [hpre] at htake
  rcases r1 with _ | j
  · have htake2 : locateLoop (massesSlice lines ms as)
        (0 + (lines.take (ms + 1)).length) m1 = (some ms, none) := htake
    rcases locateLoop_none_acc _ _ _ _ htake2 with hh | ⟨k, hk1, hk2⟩
    · rw [← hh]
    · have hlen2 : (lines.take (ms + 1)).length = ms + 1 := by
        rw [List.length_take]
        omega
      rw [hlen2] at hk1
      have hk3 := Option.some.inj hk2
      exact absurd hk1 (by omega)
  · exact htake

/-! ### The second run over the tool's own output -/

theorem take_append_len {α : Type} (l₁ l₂ : List α) (n : ℕ) :
    (l₁ ++ l₂).take (l₁.length + n) = l₁ ++ l₂.take n := by
  induction l₁ with
  | nil => simp
  | cons a l ih =>
    rw [List.cons_append, List.length_cons,
      show l.length + 1 + n = (l.length + n) + 1 by omega,
      List.take_succ_cons, ih, List.cons_append]

theorem locateLoop_step_neutral (l : String) (h1 : isMassesHeader l = false)
    (h2 : isAtomsHeader l = false) (ls : List String) (i : ℕ) (m : Option ℕ) :
    locateLoop (l :: ls) i m = locateLoop ls (i + 1) m := by
  rw [locateLoop]
  simp only [h1, Bool.false_eq_true, if_false, h2]

theorem locateLoop_at_atoms (l : String) (hM : isMassesHeader l = false)
    (hA : isAtomsHeader l = true) (ls : List String) (i : ℕ) (m : Option ℕ) :
    locateLoop (l :: ls) i m = (m, some i) := by
  rw [locateLoop]
  simp only [hM, Bool.false_eq_true, if_false, hA, if_true]

theorem foldl_massStep_map (l : List (Int × String)) :
    (∀ p ∈ l, 1 ≤ p.1) → (∀ p ∈ l, p.2 ∈ ELEMENT_DATA.map (fun q => q.1)) →
    ∀ d, (l.map (fun p => massesLine p.1 p.2)).foldl massStep d =
      l.foldl (fun d p => dictInsert d p.1 p.2) d := by
  induction l with
  | nil => intro _ _ d; rfl
  | cons p rest ih =>
    intro hk hv d
    simp only [List.map_cons, List.foldl_cons]
    rw [massStep_parsed d _ p.1 p.2 (massLineOutcome_massesLine p.1 p.2
      (hk p (List.mem_cons_self ..)) (hv p (List.mem_cons_self ..)))]
    exact ih (fun q hq => hk q (List.mem_cons_of_mem p hq))
      (fun q hq => hv q (List.mem_cons_of_mem p hq)) (dictInsert d p.1 p.2)

theorem slice_shape {P block rest : List String} {hdr : String} (ms n : ℕ)
    (hP : P.length = ms + 1) (hb : block.length = n) :
    massesSlice (P ++ "\n" :: (block ++ "\n" :: hdr :: "\n" :: rest)) ms (ms + n + 3) =
      "\n" :: (block ++ ["\n"]) := by
  unfold massesSlice
  rw [show ms + n + 3 - (ms + 1) = n + 2 by omega]
  rw [← hP, List.drop_left]
  rw [show n + 2 = n + 1 + 1 by omega, List.take_succ_cons]
  rw [← hb]
  rw [take_append_len]
  rfl

theorem parse_block_slice (ne : List (Int × String))
    (hk : ∀ p ∈ ne, 1 ≤ p.1) (hv : ∀ p ∈ ne, p.2 ∈ ELEMENT_DATA.map (fun q => q.1))
    (hnod : (ne.map (fun p => p.1)).Nodup) :
    parseMassesDict ("\n" :: (ne.map (fun p => massesLine p.1 p.2) ++ ["\n"])) = ne := by
  unfold parseMassesDict
  rw [List.foldl_cons, massStep_skip _ "\n" (by decide), List.foldl_append,
    List.foldl_cons, List.foldl_nil, massStep_skip _ "\n" (by decide)]
  rw [foldl_massStep_map ne hk hv []]
  rw [foldl_dictInsert_append ne [] (by simp) hnod, List.nil_append]

theorem run_block_eq (lines : List String) (ms as : ℕ) :
    massesBlock (new_type_to_element (sortByZ (parseMassesDict (massesSlice lines ms as)))) =
      (new_type_to_element (sortByZ (parseMassesDict (massesSlice lines ms as)))).map
        (fun p => massesLine p.1 p.2) := by
  rw [new_type_to_element_eq, massesBlock_neSpec]

theorem run_ne_keys (lines : List String) (ms as : ℕ) :
    ∀ p ∈ new_type_to_element (sortByZ (parseMassesDict (massesSlice lines ms as))),
      1 ≤ p.1 := by
  rw [new_type_to_element_eq]
  intro p hp
  have h1 := (neSpec_mem_parts _ p hp).1
  have h2 := rangeInt_mem _ 1 p.1 h1
  omega

theorem run_ne_vals (lines : List String) (ms as : ℕ) :
    ∀ p ∈ new_type_to_element (sortByZ (parseMassesDict (massesSlice lines ms as))),
      p.2 ∈ ELEMENT_DATA.map (fun q => q.1) := by
  rw [new_type_to_element_eq]
  intro p hp
  rcases neSpec_mem_snd _ 1 p hp with ⟨q, hq, hq2⟩
  rw [hq2]
  exact parseMassesDict_values _ q ((sortKey_perm zOfPair _).mem_iff.1 hq)

theorem run_block_neutral (lines : List String) (ms as : ℕ) :
    ∀ l ∈ massesBlock (new_type_to_element (sortByZ (parseMassesDict
        (massesSlice lines ms as)))),
      isMassesHeader l = false ∧ isAtomsHeader l = false := by
  rw [run_block_eq]
  intro l hl
  rcases List.mem_map.1 hl with ⟨p, hp, rfl⟩
  have hk := run_ne_keys lines ms as p hp
  have hv := run_ne_vals lines ms as p hp
  exact ⟨massesLine_not_masses p.1 p.2 hk hv, massesLine_not_atoms p.1 p.2 hk hv⟩

theorem run_ne_length (lines : List String) (ms as : ℕ) :
    (new_type_to_element (sortByZ (parseMassesDict (massesSlice lines ms as)))).length =
      (parseMassesDict (massesSlice lines ms as)).length := by
  rw [new_type_to_element_eq, neSpec_length]
  exact sortKey_length zOfPair _

theorem second_run (lines chunks : List String) (ms as : ℕ)
    (h : locateSections lines = (some ms, some as))
    (hne : parseMassesDict (massesSlice lines ms as) ≠ [])
    (hfix : fix_lammps_types lines = some chunks) :
    locateSections chunks =
      (some ms, some (ms + (parseMassesDict (massesSlice lines ms as)).length + 3)) ∧
    parseMassesDict (massesSlice chunks ms
        (ms + (parseMassesDict (massesSlice lines ms as)).length + 3)) =
      new_type_to_element (sortByZ (parseMassesDict (massesSlice lines ms as))) := by
  have hc : chunks = lines.take (ms + 1) ++ "\n" ::
      (massesBlock (new_type_to_element (sortByZ (parseMassesDict (massesSlice lines ms as)))) ++
       "\n" :: lines.getD as "" :: "\n" ::
       atomChunks (type_mapping (sortByZ (parseMassesDict (massesSlice lines ms as))))
         (lines.drop (as + 1))) := by
    have := fix_eq lines ms as h hne
    rw [hfix] at this
    exact Option.some.inj this
  obtain ⟨hpre, hms, hlen, hAs⟩ := prefix_scan lines ms as h
  have hPlen : (lines.take (ms + 1)).length = ms + 1 := by
    rw [List.length_take]
    omega
  have hN : (massesBlock (new_type_to_element (sortByZ (parseMassesDict
      (massesSlice lines ms as))))).length =
      (parseMassesDict (massesSlice lines ms as)).length := by
    rw [run_block_eq, List.length_map, run_ne_length]
  have hMhdr : isMassesHeader (lines.getD as "") = false := atoms_not_masses _ hAs
  subst hc
  constructor
  · show locateLoop _ 0 none = _
    rw [locateLoop_append, hpre]
    show locateLoop _ (0 + (lines.take (ms + 1)).length) (some ms) = _
    rw [locateLoop_step_neutral _ (by decide) (by decide)]
    rw [locateLoop_neutral _ (run_block_neutral lines ms as)]
    rw [locateLoop_step_neutral _ (by decide) (by decide)]
    rw [locateLoop_at_atoms _ hMhdr hAs]
    rw [hPlen, hN]
    rw [show 0 + (ms + 1) + 1 + (parseMassesDict (massesSlice lines ms as)).length + 1 =
      ms + (parseMassesDict (massesSlice lines ms as)).length + 3 by omega]
  · rw [slice_shape ms (parseMassesDict (massesSlice lines ms as)).length hPlen hN,
      run_block_eq]
    refine parse_block_slice _ (run_ne_keys lines ms as) (run_ne_vals lines ms as) ?_
    rw [new_type_to_element_eq, neSpec_fst]
    exact rangeInt_nodup _ 1

theorem run_ne_pairwise (lines : List String) (ms as : ℕ) :
    (new_type_to_element (sortByZ (parseMassesDict (massesSlice lines ms as)))).Pairwise
      (fun p q => zOfPair p ≤ zOfPair q) := by
  rw [new_type_to_element_eq]
  exact neSpec_pairwise _ (sortKey_pairwise zOfPair _) 1

theorem run_ne_sorted (lines : List String) (ms as : ℕ) :
    sortByZ (new_type_to_element (sortByZ (parseMassesDict (massesSlice lines ms as)))) =
      new_type_to_element (sortByZ (parseMassesDict (massesSlice lines ms as))) :=
  sortKey_eq_of_pairwise zOfPair _ (run_ne_pairwise lines ms as)

theorem run_ne_fixed (lines : List String) (ms as : ℕ) :
    new_type_to_element (sortByZ (new_type_to_element (sortByZ (parseMassesDict
        (massesSlice lines ms as))))) =
      new_type_to_element (sortByZ (parseMassesDict (massesSlice lines ms as))) := by
  rw [run_ne_sorted]
  rw [new_type_to_element_eq (new_type_to_element (sortByZ (parseMassesDict
    (massesSlice lines ms as))))]
  rw [new_type_to_element_eq (sortByZ (parseMassesDict (massesSlice lines ms as)))]
  rw [neSpec_idem]

theorem runMapping_eq (lines : List String) (ms as : ℕ)
    (h : locateSections lines = (some ms, some as)) :
    runMapping? lines =
      if (parseMassesDict (massesSlice lines ms as)).isEmpty = true then none
      else some (type_mapping (sortByZ (parseMassesDict (massesSlice lines ms as)))) := by
  unfold runMapping?
  rw [h]

theorem runMassesBlock_eq (lines : List String) (ms as : ℕ)
    (h : locateSections lines = (some ms, some as)) :
    runMassesBlock? lines =
      if (parseMassesDict (massesSlice lines ms as)).isEmpty = true then none
      else some (massesBlock (new_type_to_element (sortByZ (parseMassesDict
        (massesSlice lines ms as))))) := by
  unfold runMassesBlock?
  rw [h]

/-! ### Facts shared by several claims -/

theorem locate_facts (lines : List String) (ms as : ℕ)
    (h : locateSections lines = (some ms, some as)) :
    ms < as ∧ as < lines.length ∧
    isMassesHeader (lines.getD ms "") = true ∧
    isAtomsHeader (lines.getD as "") = true ∧
    ∀ k, k < as → isAtomsHeader (lines.getD k "") = false := by
  have hinv := locateLoop_inv lines 0 none (some ms) as h
  obtain ⟨-, hlen, -, hatoms, -, hscan, hdisj⟩ := hinv
  simp only [Nat.sub_zero] at hlen hatoms hscan
  rcases hdisj with hh | ⟨km, -, hk2, hk3, hk4⟩
  · exact absurd hh (by simp)
  · have hkm : km = ms := (Option.some.inj hk3).symm
    subst hkm
    simp only [Nat.sub_zero] at hk4
    refine ⟨hk2, hlen, hk4, hatoms, ?_⟩
    intro k hk
    by_cases hA : isAtomsHeader (lines.getD k "") = true
    · have hM := atoms_not_masses _ hA
      have hAf := hscan k hk hM
      rw [hA] at hAf
      exact absurd hAf (by simp)
    · exact Bool.of_not_eq_true hA

/-! ### The claims -/

/-- C1: when the Masses section yields at least one valid entry, the old type
ids in `current_type_to_element` are distinct, the by-atomic-number
`type_mapping` has exactly those old ids as keys (in sorted order) and the
contiguous new ids `1..N` as values, the sorted pair list is ordered by
atomic number, and pairs with equal atomic number keep their original
relative order (stability). -/
theorem c1_mapping_contiguous_sorted (lines : List String) (ms as : ℕ)
    (h : locateSections lines = (some ms, some as))
    (hne : parseMassesDict (massesSlice lines ms as) ≠ []) :
    ((parseMassesDict (massesSlice lines ms as)).map (fun p => p.1)).Nodup ∧
    (type_mapping (sortByZ (parseMassesDict (massesSlice lines ms as)))).map (fun p => p.1) =
      (sortByZ (parseMassesDict (massesSlice lines ms as))).map (fun p => p.1) ∧
    (type_mapping (sortByZ (parseMassesDict (massesSlice lines ms as)))).map (fun p => p.2) =
      rangeInt 1 (parseMassesDict (massesSlice lines ms as)).length ∧
    (sortByZ (parseMassesDict (massesSlice lines ms as))).Pairwise
      (fun p q => zOfPair p ≤ zOfPair q) ∧
    ∀ z : ℕ, (sortByZ (parseMassesDict (massesSlice lines ms as))).filter
        (fun p => zOfPair p == z) =
      (parseMassesDict (massesSlice lines ms as)).filter (fun p => zOfPair p == z) := by
  have hnod : ((parseMassesDict (massesSlice lines ms as)).map (fun p => p.1)).Nodup :=
    parseMassesDict_keys_nodup _
  have hsnod := sortByZ_keys_nodup _ hnod
  have htm := type_mapping_eq _ hsnod
  have hsl : (sortByZ (parseMassesDict (massesSlice lines ms as))).length =
      (parseMassesDict (massesSlice lines ms as)).length := sortKey_length zOfPair _
  refine ⟨hnod, ?_, ?_, sortKey_pairwise zOfPair _, fun z => sortKey_filter zOfPair _ z⟩
  · rw [htm, tmSpec_fst]
  · rw [htm, tmSpec_snd, hsl]

theorem c1_witness :
    locateSections ["Masses\n", "1 55.845\n", "2 1.008\n", "Atoms\n"] = (some 0, some 3) ∧
    parseMassesDict (massesSlice ["Masses\n", "1 55.845\n", "2 1.008\n", "Atoms\n"] 0 3) ≠
      [] ∧
    ((parseMassesDict (massesSlice ["Masses\n", "1 55.845\n", "2 1.008\n", "Atoms\n"]
        0 3)).map (fun p => p.1)).Nodup ∧
    (type_mapping (sortByZ (parseMassesDict (massesSlice
        ["Masses\n", "1 55.845\n", "2 1.008\n", "Atoms\n"] 0 3)))).map (fun p => p.2) =
      rangeInt 1 (parseMassesDict (massesSlice
        ["Masses\n", "1 55.845\n", "2 1.008\n", "Atoms\n"] 0 3)).length ∧
    (sortByZ (parseMassesDict (massesSlice
        ["Masses\n", "1 55.845\n", "2 1.008\n", "Atoms\n"] 0 3))).filter
        (fun p => zOfPair p == 26) =
      (parseMassesDict (massesSlice ["Masses\n", "1 55.845\n", "2 1.008\n", "Atoms\n"]
        0 3)).filter (fun p => zOfPair p == 26) := by
  have h := c1_mapping_contiguous_sorted ["Masses\n", "1 55.845\n", "2 1.008\n", "Atoms\n"]
    0 3 (by decide) (by decide)
  exact ⟨by decide, by decide, h.1, h.2.2.1, h.2.2.2.2 26⟩

/-- C2 counterexample: a non-blank, non-comment Atoms line with exactly four
tokens, integer id and type, and a mapped type is dropped, not reformatted:
`coords[2]` raises `IndexError` inside the f-string of source line 158 and
the `except` clause of line 166 swallows the line. -/
theorem c2_counterexample :
    pyStrip "7 2 1.0 2.0\n" ≠ "" ∧
    strStarts (pyStrip "7 2 1.0 2.0\n") "#" = false ∧
    (pySplitWs "7 2 1.0 2.0\n").length = 4 ∧
    pyInt? ((pySplitWs "7 2 1.0 2.0\n").getD 0 "") = some 7 ∧
    pyInt? ((pySplitWs "7 2 1.0 2.0\n").getD 1 "") = some 2 ∧
    dictGet? [((2 : Int), (5 : Int))] 2 = some 5 ∧
    processAtomLine [(2, 5)] "7 2 1.0 2.0\n" = AtomOut.dropped := by decide

/-- C2 (amended): for a non-blank, non-comment line with at least FIVE
whitespace-separated tokens whose first two tokens parse as integers and
whose old type is mapped, the rewriter emits the reformatted record, and
that record re-splits into the same atom id, the new type, and the same
coordinate tokens. -/
theorem c2_remap_record (tm : List (Int × Int)) (line : String) (a t nt : Int)
    (h0 : pyStrip line ≠ "")
    (h1 : strStarts (pyStrip line) "#" = false)
    (h5 : 5 ≤ (pySplitWs line).length)
    (ha : pyInt? ((pySplitWs line).getD 0 "") = some a)
    (ht : pyInt? ((pySplitWs line).getD 1 "") = some t)
    (hm : dictGet? tm t = some nt) :
    processAtomLine tm line =
      AtomOut.remapped (formatAtomLine a nt ((pySplitWs line).drop 2)) ∧
    pySplitWs (formatAtomLine a nt ((pySplitWs line).drop 2)) =
      intStr a :: intStr nt :: (pySplitWs line).drop 2 := by
  have htoks := pySplitWs_tokens line
  have hc : ((pyStrip line == "") || strStarts (pyStrip line) "#") = false := by
    have hb : (pyStrip line == "") = false := beq_eq_false_iff_ne.2 h0
    rw [hb, h1]
    rfl
  constructor
  · rw [processAtomLine_eq]
    simp only [hc, Bool.false_eq_true, if_false]
    rw [if_neg (by omega)]
    rw [ha, ht]
    show (match dictGet? tm t with
      | some new_type =>
        if (pySplitWs line).length < 5 then AtomOut.dropped
        else AtomOut.remapped (formatAtomLine a new_type ((pySplitWs line).drop 2))
      | none => AtomOut.passthrough line) = _
    rw [hm]
    show (if (pySplitWs line).length < 5 then AtomOut.dropped
      else AtomOut.remapped (formatAtomLine a nt ((pySplitWs line).drop 2))) = _
    rw [if_neg (by omega)]
  · rcases hx : (pySplitWs line).drop 2 with _ | ⟨c0, _ | ⟨c1, _ | ⟨c2, rest⟩⟩⟩
    · have hcon := congrArg List.length hx
      simp at hcon
      omega
    · have hcon := congrArg List.length hx
      simp at hcon
      omega
    · have hcon := congrArg List.length hx
      simp at hcon
      omega
    · have hmem : ∀ s ∈ c0 :: c1 :: c2 :: rest,
          s.data ≠ [] ∧ ∀ ch ∈ s.data, isSpace ch = false := by
        intro s hs
        have hs2 : s ∈ (pySplitWs line).drop 2 := by
          rw [hx]
          exact hs
        exact htoks s (List.drop_subset 2 (pySplitWs line) hs2)
      exact formatAtomLine_split a nt c0 c1 c2 rest
        (hmem c0 (by simp)) (hmem c1 (by simp)) (hmem c2 (by simp))
        (fun s hs => hmem s (by simp [hs]))

theorem c2_witness :
    (pyStrip "7 2 1.0 2.0 3.0\n" ≠ "" ∧
     strStarts (pyStrip "7 2 1.0 2.0 3.0\n") "#" = false ∧
     5 ≤ (pySplitWs "7 2 1.0 2.0 3.0\n").length ∧
     pyInt? ((pySplitWs "7 2 1.0 2.0 3.0\n").getD 0 "") = some 7 ∧
     pyInt? ((pySplitWs "7 2 1.0 2.0 3.0\n").getD 1 "") = some 2 ∧
     dictGet? [((2 : Int), (5 : Int))] 2 = some 5) ∧
    processAtomLine [(2, 5)] "7 2 1.0 2.0 3.0\n" =
      AtomOut.remapped (formatAtomLine 7 5 ((pySplitWs "7 2 1.0 2.0 3.0\n").drop 2)) ∧
    pySplitWs (formatAtomLine 7 5 ((pySplitWs "7 2 1.0 2.0 3.0\n").drop 2)) =
      intStr 7 :: intStr 5 :: (pySplitWs "7 2 1.0 2.0 3.0\n").drop 2 :=
  ⟨⟨by decide, by decide, by decide, by decide, by decide, by decide⟩,
   c2_remap_record [(2, 5)] "7 2 1.0 2.0 3.0\n" 7 2 5 (by decide) (by decide)
     (by decide) (by decide) (by decide) (by decide)⟩

/-- C3 counterexample: a valid-looking Masses line with the unknown mass 30.0
does not abort the run: `identify_element` has no match, the `ValueError` it
raises is caught by the per-line `except (ValueError, IndexError)` of source
line 87, the line is warned about, and the run still writes output. -/
theorem c3_counterexample :
    identify_element (mkRat 30 1) = none ∧
    pyFloat? "30.0" = some (mkRat 30 1) ∧
    massLineOutcome "1 30.0\n" = MassOutcome.warned ∧
    parseMassesDict ["1 30.0\n", "2 1.008\n"] = [(2, "H")] ∧
    (fix_lammps_types ["Masses\n", "1 30.0\n", "2 1.008\n", "Atoms\n"]).isSome = true := by
  decide

/-- C3 (amended): a Masses line whose mass matches no table entry within the
1.0 tolerance is warned about and skipped per-line: it leaves the dict step
unchanged and the rest of the parse proceeds as if the line were absent. -/
theorem c3_unknown_mass_warned (line : String) (t : Int) (m : ℚ)
    (h0 : pyStrip line ≠ "")
    (h1 : strStarts (pyStrip line) "#" = false)
    (h2 : 2 ≤ (pySplitWs (beforeHash (pyStrip line))).length)
    (h3 : pyInt? ((pySplitWs (beforeHash (pyStrip line))).getD 0 "") = some t)
    (h4 : pyFloat? ((pySplitWs (beforeHash (pyStrip line))).getD 1 "") = some m)
    (h5 : identify_element m = none) :
    massLineOutcome line = MassOutcome.warned ∧
    (∀ d, massStep d line = d) ∧
    ∀ pre post : List String,
      parseMassesDict (pre ++ line :: post) = parseMassesDict (pre ++ post) := by
  have hc : ((pyStrip line == "") || strStarts (pyStrip line) "#") = false := by
    have hb : (pyStrip line == "") = false := beq_eq_false_iff_ne.2 h0
    rw [hb, h1]
    rfl
  have hout : massLineOutcome line = MassOutcome.warned := by
    rw [massLineOutcome_eq]
    simp only [hc, Bool.false_eq_true, if_false]
    rw [if_neg (by omega)]
    rw [h3, h4]
    show (match identify_element m with
      | some e => MassOutcome.parsed t e
      | none => MassOutcome.warned) = MassOutcome.warned
    rw [h5]
  have hstep : ∀ d, massStep d line = d := by
    intro d
    apply massStep_skip
    unfold parsedPair?
    rw [hout]
  refine ⟨hout, hstep, ?_⟩
  intro pre post
  unfold parseMassesDict
  rw [List.foldl_append, List.foldl_append, List.foldl_cons, hstep]

theorem c3_witness :
    (pyStrip "1 30.0\n" ≠ "" ∧
     strStarts (pyStrip "1 30.0\n") "#" = false ∧
     2 ≤ (pySplitWs (beforeHash (pyStrip "1 30.0\n"))).length ∧
     pyInt? ((pySplitWs (beforeHash (pyStrip "1 30.0\n"))).getD 0 "") = some 1 ∧
     pyFloat? ((pySplitWs (beforeHash (pyStrip "1 30.0\n"))).getD 1 "") =
       some (mkRat 30 1) ∧
     identify_element (mkRat 30 1) = none) ∧
    massLineOutcome "1 30.0\n" = MassOutcome.warned ∧
    massStep [((7 : Int), "Fe")] "1 30.0\n" = [((7 : Int), "Fe")] ∧
    parseMassesDict (["2 1.008\n"] ++ "1 30.0\n" :: ["3 12.011\n"]) =
      parseMassesDict (["2 1.008\n"] ++ ["3 12.011\n"]) := by
  have h := c3_unknown_mass_warned "1 30.0\n" 1 (mkRat 30 1) (by decide) (by decide)
    (by decide) (by decide) (by decide) (by decide)
  exact ⟨⟨by decide, by decide, by decide, by decide, by decide, by decide⟩,
    h.1, h.2.1 [((7 : Int), "Fe")], h.2.2 ["2 1.008\n"] ["3 12.011\n"]⟩

/-- C4 counterexample: when type id 1 is declared twice, first as iron then as
aluminium, the dict keeps the LAST element, not the first: Python dict
assignment overwrites the value in place. -/
theorem c4_counterexample :
    massLineOutcome "1 55.845\n" = MassOutcome.parsed 1 "Fe" ∧
    massLineOutcome "1 26.982\n" = MassOutcome.parsed 1 "Al" ∧
    parseMassesDict ["1 55.845\n", "1 26.982\n"] = [(1, "Al")] ∧
    dictGet? (parseMassesDict ["1 55.845\n", "1 26.982\n"]) 1 ≠ some "Fe" := by decide

/-- C4 (amended): for a duplicated type id, the LAST valid occurrence wins:
the dict entry for any key holds the element of the last valid Masses line
declaring that key (the key position is that of the first occurrence, but
the stored element is the latest one). -/
theorem c4_last_wins (slice : List String) (t : Int) :
    dictGet? (parseMassesDict slice) t =
      match lastOpt ((slice.filterMap parsedPair?).filter (fun p => p.1 == t)) with
      | some p => some p.2
      | none => none := by
  have h := dictGet?_foldl_massStep slice [] t
  unfold parseMassesDict
  rw [h]
  rcases hl : lastOpt ((slice.filterMap parsedPair?).filter (fun p => p.1 == t)) with _ | pr
  · rfl
  · rfl

/-- C5: when either header is missing, or when the Masses slice yields no
valid entry, the run returns without producing any output. -/
theorem c5_no_output (lines : List String)
    (h : (locateSections lines).1 = none ∨ (locateSections lines).2 = none ∨
      ∀ ms as, locateSections lines = (some ms, some as) →
        parseMassesDict (massesSlice lines ms as) = []) :
    fix_lammps_types lines = none := by
  unfold fix_lammps_types
  rcases hl : locateSections lines with ⟨m1, m2⟩
  rcases m1 with _ | ms
  · rcases m2 with _ | as <;> rfl
  · rcases m2 with _ | as
    · rfl
    · rcases h with h1 | h2 | h3
      · rw [hl] at h1
        exact absurd h1 (by simp)
      · rw [hl] at h2
        exact absurd h2 (by simp)
      · have hd := h3 ms as hl
        show (if (parseMassesDict (massesSlice lines ms as)).isEmpty = true then none
          else some (lines.take (ms + 1) ++ "\n" ::
            (massesBlock (new_type_to_element (sortByZ (parseMassesDict
              (massesSlice lines ms as)))) ++
             "\n" :: lines.getD as "" :: "\n" ::
             atomChunks (type_mapping (sortByZ (parseMassesDict (massesSlice lines ms as))))
               (lines.drop (as + 1))))) = none
        rw [hd]
        rfl

theorem c5_witness :
    (locateSections ["hello\n", "world\n"]).1 = none ∧
    fix_lammps_types ["hello\n", "world\n"] = none :=
  ⟨by decide, c5_no_output ["hello\n", "world\n"] (Or.inl (by decide))⟩

/-- C6 counterexample: a Masses line with a single token falls through the
`if len(parts) >= 2` of source line 80 silently: its outcome is
`skippedShort`, not `warned`, so a wrong-token-count line is NOT skipped
with a warning; only failures inside the try block warn. -/
theorem c6_counterexample :
    pyStrip "5\n" ≠ "" ∧
    strStarts (pyStrip "5\n") "#" = false ∧
    (pySplitWs (beforeHash (pyStrip "5\n"))).length = 1 ∧
    massLineOutcome "5\n" = MassOutcome.skippedShort ∧
    massLineOutcome "5\n" ≠ MassOutcome.warned ∧
    parseMassesDict ["5\n", "1 55.845\n"] = [(1, "Fe")] := by decide

/-- C6 (amended): malformed Masses lines never abort the run and contribute
nothing: the dict is built from exactly the lines that parse, and a warning
is only ever issued for a line that had at least two tokens (wrong token
count is skipped silently instead). -/
theorem c6_malformed_skipped (slice : List String) :
    parseMassesDict slice =
      parseMassesDict (slice.filter (fun l => (parsedPair? l).isSome)) ∧
    ∀ l : String, massLineOutcome l = MassOutcome.warned →
      2 ≤ (pySplitWs (beforeHash (pyStrip l))).length := by
  refine ⟨parseMassesDict_filter slice, ?_⟩
  intro l hl
  rw [massLineOutcome_eq] at hl
  split at hl
  · exact absurd hl (by simp)
  · split at hl
    · exact absurd hl (by simp)
    · next hlen => omega

theorem c6_witness :
    massLineOutcome "abc notanumber\n" = MassOutcome.warned ∧
    2 ≤ (pySplitWs (beforeHash (pyStrip "abc notanumber\n"))).length ∧
    parseMassesDict ["5\n", "abc notanumber\n", "1 55.845\n"] =
      parseMassesDict (["5\n", "abc notanumber\n", "1 55.845\n"].filter
        (fun l => (parsedPair? l).isSome)) := by
  refine ⟨by decide, ?_, (c6_malformed_skipped ["5\n", "abc notanumber\n", "1 55.845\n"]).1⟩
  exact (c6_malformed_skipped ["5\n", "abc notanumber\n", "1 55.845\n"]).2
    "abc notanumber\n" (by decide)

/-- C7 counterexample: an Atoms-matching line BEFORE the Masses header stops
the scan immediately (the `break` of source line 56 fires on the first Atoms
match anywhere), `masses_start` stays unset, and the run aborts — the
sections are NOT found. -/
theorem c7_counterexample :
    isAtomsHeader "Atoms first\n" = true ∧
    isMassesHeader "Masses\n" = true ∧
    isAtomsHeader "Atoms\n" = true ∧
    locateSections ["Atoms first\n", "Masses\n", "Atoms\n"] = (none, some 0) ∧
    fix_lammps_types ["Atoms first\n", "Masses\n", "Atoms\n"] = none := by decide

/-- C7 (amended): when the locator reports both sections, the Atoms index is
the FIRST Atoms-matching line of the whole file, it lies strictly after the
reported Masses header, and no earlier line matches Atoms. -/
theorem c7_locator (lines : List String) (ms as : ℕ)
    (h : locateSections lines = (some ms, some as)) :
    ms < as ∧ as < lines.length ∧
    isMassesHeader (lines.getD ms "") = true ∧
    isAtomsHeader (lines.getD as "") = true ∧
    ∀ k, k < as → isAtomsHeader (lines.getD k "") = false :=
  locate_facts lines ms as h

theorem c7_witness :
    locateSections ["x\n", "Masses\n", "1 1.008\n", "Atoms\n"] = (some 1, some 3) ∧
    1 < 3 ∧
    isMassesHeader (["x\n", "Masses\n", "1 1.008\n", "Atoms\n"].getD 1 "") = true ∧
    isAtomsHeader (["x\n", "Masses\n", "1 1.008\n", "Atoms\n"].getD 3 "") = true ∧
    isAtomsHeader (["x\n", "Masses\n", "1 1.008\n", "Atoms\n"].getD 0 "") = false := by
  have h := c7_locator ["x\n", "Masses\n", "1 1.008\n", "Atoms\n"] 1 3 (by decide)
  exact ⟨by decide, h.1, h.2.2.1, h.2.2.2.1, h.2.2.2.2 0 (by decide)⟩

/-- C8: a successful run writes every input line up to and including the
Masses header verbatim and in order (the `take (ms+1)` prefix of the input),
then exactly one blank line: the next chunk is the first rewritten Masses
line, which is not blank. -/
theorem c8_preamble_verbatim (lines : List String) (ms as : ℕ)
    (h : locateSections lines = (some ms, some as))
    (hne : parseMassesDict (massesSlice lines ms as) ≠ []) :
    fix_lammps_types lines = some (lines.take (ms + 1) ++ "\n" ::
      (massesBlock (new_type_to_element (sortByZ (parseMassesDict (massesSlice lines ms as)))) ++
       "\n" :: lines.getD as "" :: "\n" ::
       atomChunks (type_mapping (sortByZ (parseMassesDict (massesSlice lines ms as))))
         (lines.drop (as + 1)))) ∧
    (lines.take (ms + 1)).length = ms + 1 ∧
    isMassesHeader (lines.getD ms "") = true ∧
    massesBlock (new_type_to_element (sortByZ (parseMassesDict (massesSlice lines ms as)))) ≠
      [] ∧
    pyStrip ((massesBlock (new_type_to_element (sortByZ (parseMassesDict
      (massesSlice lines ms as))))).headD "") ≠ "" := by
  obtain ⟨hms, hlen, hmass, -, -⟩ := locate_facts lines ms as h
  have hblock : massesBlock (new_type_to_element (sortByZ (parseMassesDict
      (massesSlice lines ms as)))) ≠ [] ∧
      pyStrip ((massesBlock (new_type_to_element (sortByZ (parseMassesDict
        (massesSlice lines ms as))))).headD "") ≠ "" := by
    rw [run_block_eq]
    rcases hb : new_type_to_element (sortByZ (parseMassesDict (massesSlice lines ms as)))
      with _ | ⟨p, ps⟩
    · exfalso
      have hn := run_ne_length lines ms as
      rw [hb] at hn
      simp only [List.length_nil] at hn
      exact hne (List.length_eq_zero.1 hn.symm)
    · simp only [List.map_cons, List.headD_cons, ne_eq]
      exact ⟨by simp, massesLine_strip_ne p.1 p.2⟩
  refine ⟨fix_eq lines ms as h hne, ?_, hmass, hblock.1, hblock.2⟩
  rw [List.length_take]
  omega

theorem c8_witness :
    locateSections ["header\n", "Masses\n", "1 12.011\n", "Atoms\n"] = (some 1, some 3) ∧
    parseMassesDict (massesSlice ["header\n", "Masses\n", "1 12.011\n", "Atoms\n"] 1 3) ≠
      [] ∧
    fix_lammps_types ["header\n", "Masses\n", "1 12.011\n", "Atoms\n"] =
      some (["header\n", "Masses\n", "1 12.011\n", "Atoms\n"].take (1 + 1) ++ "\n" ::
        (massesBlock (new_type_to_element (sortByZ (parseMassesDict (massesSlice
          ["header\n", "Masses\n", "1 12.011\n", "Atoms\n"] 1 3)))) ++
         "\n" :: ["header\n", "Masses\n", "1 12.011\n", "Atoms\n"].getD 3 "" :: "\n" ::
         atomChunks (type_mapping (sortByZ (parseMassesDict (massesSlice
           ["header\n", "Masses\n", "1 12.011\n", "Atoms\n"] 1 3))))
           (["header\n", "Masses\n", "1 12.011\n", "Atoms\n"].drop (3 + 1)))) ∧
    pyStrip ((massesBlock (new_type_to_element (sortByZ (parseMassesDict (massesSlice
      ["header\n", "Masses\n", "1 12.011\n", "Atoms\n"] 1 3))))).headD "") ≠ "" := by
  have h := c8_preamble_verbatim ["header\n", "Masses\n", "1 12.011\n", "Atoms\n"] 1 3
    (by decide) (by decide)
  exact ⟨by decide, by decide, h.1, h.2.2.2.2⟩

/-- C9: the tool is idempotent on its own output: feeding the written file
back in yields a run whose type mapping is the identity on the new ids
`1..N` (every type maps to itself) and whose rewritten Masses block is
identical to the one already in the file. -/
theorem c9_idempotent (lines chunks : List String)
    (hwf : ∀ l ∈ lines, wfLine l)
    (hfix : fix_lammps_types lines = some chunks) :
    runMapping? (pyReadLines (joinAll chunks)) =
      some (identityMapping (runDict lines).length) ∧
    runMassesBlock? (pyReadLines (joinAll chunks)) = runMassesBlock? lines := by
  obtain ⟨ms, as, hloc, hne, -⟩ := fix_some_inv lines chunks hfix
  have hread : pyReadLines (joinAll chunks) = chunks :=
    pyReadLines_join chunks (fix_chunks_wf lines chunks hwf hfix)
  rw [hread]
  obtain ⟨hloc2, hd2⟩ := second_run lines chunks ms as hloc hne hfix
  have hdlen : (runDict lines).length =
      (parseMassesDict (massesSlice lines ms as)).length := by
    unfold runDict
    rw [hloc]
  have hnelen := run_ne_length lines ms as
  have hne2 : new_type_to_element (sortByZ (parseMassesDict (massesSlice lines ms as))) ≠
      [] := by
    intro h0
    rw [h0] at hnelen
    simp only [List.length_nil] at hnelen
    exact hne (List.length_eq_zero.1 hnelen.symm)
  have hneempty : (new_type_to_element (sortByZ (parseMassesDict
      (massesSlice lines ms as)))).isEmpty = false := by
    simp [List.isEmpty_iff, hne2]
  have hdempty : (parseMassesDict (massesSlice lines ms as)).isEmpty = false := by
    simp [List.isEmpty_iff, hne]
  have hnenodup : ((new_type_to_element (sortByZ (parseMassesDict
      (massesSlice lines ms as)))).map (fun p => p.1)).Nodup := by
    rw [new_type_to_element_eq, neSpec_fst]
    exact rangeInt_nodup _ 1
  have hsl : (sortByZ (parseMassesDict (massesSlice lines ms as))).length =
      (parseMassesDict (massesSlice lines ms as)).length := sortKey_length zOfPair _
  constructor
  · rw [runMapping_eq chunks ms _ hloc2, hd2, hneempty]
    simp only [Bool.false_eq_true, if_false]
    rw [run_ne_sorted lines ms as, type_mapping_eq _ hnenodup, new_type_to_element_eq,
      tmSpec_of_neSpec, hsl, hdlen]
    rfl
  · rw [runMassesBlock_eq chunks ms _ hloc2, runMassesBlock_eq lines ms as hloc, hd2,
      hneempty, hdempty]
    simp only [Bool.false_eq_true, if_false]
    rw [run_ne_fixed]

theorem c9_witness :
    fix_lammps_types ["Masses\n", "1 55.845\n", "2 1.008\n", "Atoms\n",
        "1 1 0.5 0.5 0.5\n"] =
      some ((fix_lammps_types ["Masses\n", "1 55.845\n", "2 1.008\n", "Atoms\n",
        "1 1 0.5 0.5 0.5\n"]).getD []) ∧
    runMapping? (pyReadLines (joinAll ((fix_lammps_types ["Masses\n", "1 55.845\n",
        "2 1.008\n", "Atoms\n", "1 1 0.5 0.5 0.5\n"]).getD []))) =
      some (identityMapping (runDict ["Masses\n", "1 55.845\n", "2 1.008\n", "Atoms\n",
        "1 1 0.5 0.5 0.5\n"]).length) ∧
    runMassesBlock? (pyReadLines (joinAll ((fix_lammps_types ["Masses\n", "1 55.845\n",
        "2 1.008\n", "Atoms\n", "1 1 0.5 0.5 0.5\n"]).getD []))) =
      runMassesBlock? ["Masses\n", "1 55.845\n", "2 1.008\n", "Atoms\n",
        "1 1 0.5 0.5 0.5\n"] := by
  have hwf : ∀ l ∈ ["Masses\n", "1 55.845\n", "2 1.008\n", "Atoms\n",
      "1 1 0.5 0.5 0.5\n"], wfLine l := by
    intro l hl
    simp only [List.mem_cons, List.not_mem_nil, or_false] at hl
    rcases hl with rfl | rfl | rfl | rfl | rfl
    · exact ⟨"Masses".data, rfl, by decide⟩
    · exact ⟨"1 55.845".data, rfl, by decide⟩
    · exact ⟨"2 1.008".data, rfl, by decide⟩
    · exact ⟨"Atoms".data, rfl, by decide⟩
    · exact ⟨"1 1 0.5 0.5 0.5".data, rfl, by decide⟩
  exact ⟨by decide, c9_idempotent ["Masses\n", "1 55.845\n", "2 1.008\n", "Atoms\n",
    "1 1 0.5 0.5 0.5\n"] ((fix_lammps_types ["Masses\n", "1 55.845\n", "2 1.008\n",
    "Atoms\n", "1 1 0.5 0.5 0.5\n"]).getD []) hwf (by decide)⟩

/-- C10: each rewritten Masses line carries the canonical table mass of the
identified element, rendered by `formatFixed8` from `refMass` (the
`ELEMENT_DATA` entry), not the mass parsed from the input file. -/
theorem c10_table_mass (lines : List String) (ms as : ℕ)
    (h : locateSections lines = (some ms, some as))
    (hne : parseMassesDict (massesSlice lines ms as) ≠ []) :
    massesBlock (new_type_to_element (sortByZ (parseMassesDict (massesSlice lines ms as)))) =
      (new_type_to_element (sortByZ (parseMassesDict (massesSlice lines ms as)))).map
        (fun p => massesLine p.1 p.2) ∧
    ∀ p ∈ new_type_to_element (sortByZ (parseMassesDict (massesSlice lines ms as))),
      pySplitWs (beforeHash (pyStrip (massesLine p.1 p.2))) =
        [intStr p.1, formatFixed8 (refMass p.2)] := by
  refine ⟨run_block_eq lines ms as, ?_⟩
  intro p hp
  exact massesLine_parts p.1 p.2 (run_ne_keys lines ms as p hp)
    (run_ne_vals lines ms as p hp)

theorem c10_witness :
    locateSections ["Masses\n", "1 55.9\n", "Atoms\n"] = (some 0, some 2) ∧
    parseMassesDict (massesSlice ["Masses\n", "1 55.9\n", "Atoms\n"] 0 2) ≠ [] ∧
    parseMassesDict (massesSlice ["Masses\n", "1 55.9\n", "Atoms\n"] 0 2) = [(1, "Fe")] ∧
    refMass "Fe" ≠ mkRat 559 10 ∧
    massesBlock (new_type_to_element (sortByZ (parseMassesDict (massesSlice
        ["Masses\n", "1 55.9\n", "Atoms\n"] 0 2)))) =
      (new_type_to_element (sortByZ (parseMassesDict (massesSlice
        ["Masses\n", "1 55.9\n", "Atoms\n"] 0 2)))).map (fun p => massesLine p.1 p.2) ∧
    pySplitWs (beforeHash (pyStrip (massesLine 1 "Fe"))) =
      [intStr 1, formatFixed8 (refMass "Fe")] := by
  have h := c10_table_mass ["Masses\n", "1 55.9\n", "Atoms\n"] 0 2 (by decide) (by decide)
  exact ⟨by decide, by decide, by decide, by decide, h.1,
    h.2 ((1 : Int), "Fe") (by decide)⟩

end FixLammps
